import Mathlib

/-!
# tinypvm: a stack-based bytecode virtual machine

Shallow embedding of `tinypvm.c` and the properties of its decoder
(`vm_read_u8`, `vm_read_i32`), its stack primitives (`push`, `pop`) and its
fetch-decode-execute loop (`run`).

Modelling conventions

* `uint8_t` is `Fin 256`; `size_t` offsets are `Nat` (the buffer length is the
  length of a real buffer, so `ic + 4` does not wrap).
* `int32_t` values are `Int`, brought back into the 32-bit range by `wrap32`
  after every arithmetic operator.  This is the two's-complement result that
  the target machine computes for `+`, `-`, `*` and for the conversion in
  `vm_read_i32`.
* The C `stack[STACK_SIZE]` array is a `List Int`; `vm_init` makes it 1024 cells
  long and no operation changes its length.  `sp` is a C `int`, hence `Int`.
* Text written to `stdout` is accumulated in the field `out`.
* `exit(1)` inside `push`/`pop` and the `return`s inside `run` end the loop
  with an `Outcome` that records which of the two happened.
-/

namespace TinyPVM

/-- A `uint8_t`. -/
abbrev Byte := Fin 256

/-- Capacity of the data stack: `#define STACK_SIZE 1024`. -/
def STACK_SIZE : Nat := 1024

/-- Conversion of an integer to `int32_t`: the representative of `x` modulo `2^32`
that lies in `[-2^31, 2^31)`. -/
def wrap32 (x : Int) : Int :=
  let u := x % 4294967296
  if u < 2147483648 then u else u - 4294967296

/-- `INT32_MIN`. -/
def INT32_MIN : Int := -2147483648

/-- `INT32_MAX`. -/
def INT32_MAX : Int := 2147483647

/-- Membership in the range of `int32_t`. -/
def isInt32 (x : Int) : Prop := INT32_MIN ≤ x ∧ x ≤ INT32_MAX

instance (x : Int) : Decidable (isInt32 x) := by
  unfold isInt32; infer_instance

/-- The machine state: the fields of the C `struct VM` (with `code_len` being the
length of `code`) together with the text written to `stdout` so far. -/
structure VM where
  /-- Field `code` (with `code_len = code.length`): the bytecode. -/
  code : List Byte
  /-- Field `ic`: the instruction counter. -/
  ic : Nat
  /-- Field `stack`: the cells of the data stack. -/
  stack : List Int
  /-- Field `sp`: the next free slot. -/
  sp : Int
  /-- Everything printed on `stdout` so far. -/
  out : String
deriving DecidableEq, Repr

/-- Field `code_len` of the C struct. -/
def VM.code_len (vm : VM) : Nat := vm.code.length

/-- The live part of the stack, bottom first: cells `0 .. sp-1`. -/
def VM.elems (vm : VM) : List Int := vm.stack.take vm.sp.toNat

/-- `vm_init`: cursor 0, `sp = 0`, the stack cells zeroed by `memset`. -/
def vm_init (code : List Byte) : VM :=
  { code := code, ic := 0, stack := List.replicate STACK_SIZE 0, sp := 0, out := "" }

/-- `vm_read_u8`: `none` is the C return value 0 (end of code); otherwise the
byte at `ic` and the state with `ic` incremented. -/
def vm_read_u8 (vm : VM) : Option (Byte × VM) :=
  if vm.ic ≥ vm.code_len then none
  else some (vm.code.getD vm.ic 0, { vm with ic := vm.ic + 1 })

/-- `vm_read_i32`: `none` is the C return value 0; otherwise the four bytes at
`ic .. ic+3` combined by `b0 | b1 << 8 | b2 << 16 | b3 << 24` and converted to
`int32_t`, and the state with `ic` advanced past them. -/
def vm_read_i32 (vm : VM) : Option (Int × VM) :=
  if vm.ic + 4 > vm.code_len then none
  else
    let b0 := (vm.code.getD vm.ic 0).val
    let b1 := (vm.code.getD (vm.ic + 1) 0).val
    let b2 := (vm.code.getD (vm.ic + 2) 0).val
    let b3 := (vm.code.getD (vm.ic + 3) 0).val
    some (wrap32 (Int.ofNat (b0 ||| (b1 <<< 8) ||| (b2 <<< 16) ||| (b3 <<< 24))),
          { vm with ic := vm.ic + 4 })

/-- `push`: `none` is the branch that prints "Stack overflow" and calls
`exit(1)`; otherwise `stack[sp++] = v`. -/
def push (vm : VM) (v : Int) : Option VM :=
  if vm.sp ≥ STACK_SIZE then none
  else some { vm with stack := vm.stack.set vm.sp.toNat v, sp := vm.sp + 1 }

/-- `pop`: `none` is the branch that prints "Stack underflow" and calls
`exit(1)`; otherwise the value `stack[--sp]` and the state with `sp`
decremented. -/
def pop (vm : VM) : Option (Int × VM) :=
  if vm.sp ≤ 0 then none
  else some (vm.stack.getD (vm.sp - 1).toNat 0, { vm with sp := vm.sp - 1 })

/-- The run-time faults, named after the diagnostics printed on `stderr`. -/
inductive Fault where
  /-- "Stack overflow" (in `push`). -/
  | StackOverflow
  /-- "Stack underflow" (in `pop`) and "Stack underflow on DUP". -/
  | StackUnderflow
  /-- "Division by zero". -/
  | DivisionByZero
  /-- "Unknown opcode 0x.. at ic=..", with the two values that are printed. -/
  | UnknownOpcode (op : Byte) (ic : Nat)
  /-- "Unexpected EOF on PUSH". -/
  | TruncatedOperand
deriving DecidableEq, Repr

/-- How the loop of `run` ends. -/
inductive Outcome where
  /-- `case OP_HALT: return`. -/
  | Halted
  /-- The loop condition `ic < code_len` is false (or `vm_read_u8` returns 0). -/
  | EndOfStream
  /-- A diagnostic was printed and `run` executed `return`. -/
  | Returned (f : Fault)
  /-- A diagnostic was printed and `push` or `pop` called `exit(1)`. -/
  | Exited (f : Fault)
  /-- The model ran out of fuel (never the case for `run`, see `run_ne_OutOfFuel`). -/
  | OutOfFuel
deriving DecidableEq, Repr

/-- The fault, if any, with which a run ended. -/
def Outcome.fault : Outcome → Option Fault
  | .Returned f => some f
  | .Exited f => some f
  | _ => none

/-- Result of one iteration of the loop: go round again, or leave the loop. -/
inductive Step where
  | next (vm : VM)
  | stop (o : Outcome) (vm : VM)
deriving DecidableEq, Repr

/-- The call `push(vm, v)` as the last statement of a `case`. -/
def pushK (vm : VM) (v : Int) : Step :=
  match push vm v with
  | none => .stop (.Exited .StackOverflow) vm
  | some vm1 => .next vm1

/-- One iteration of the body of the `while` loop in `run`: fetch the opcode
and execute the `switch`.

`a / b` is C's division, which truncates toward zero (`Int.tdiv`).  Its result
fits `int32_t` for every non-zero divisor except in `INT32_MIN / -1`, which C
leaves undefined (the x86 divide instruction traps on it); the embedding wraps
that quotient like the results of the other operators. -/
def step (vm : VM) : Step :=
  match vm_read_u8 vm with
  | none => .stop .EndOfStream vm
  | some (op, vm) =>
    match op.val with
    | 0 => -- OP_HALT
      .stop .Halted vm
    | 1 => -- OP_PUSH
      match vm_read_i32 vm with
      | none => .stop (.Returned .TruncatedOperand) vm
      | some (v, vm) => pushK vm v
    | 2 => -- OP_ADD
      match pop vm with
      | none => .stop (.Exited .StackUnderflow) vm
      | some (b, vm) =>
        match pop vm with
        | none => .stop (.Exited .StackUnderflow) vm
        | some (a, vm) => pushK vm (wrap32 (a + b))
    | 3 => -- OP_SUB
      match pop vm with
      | none => .stop (.Exited .StackUnderflow) vm
      | some (b, vm) =>
        match pop vm with
        | none => .stop (.Exited .StackUnderflow) vm
        | some (a, vm) => pushK vm (wrap32 (a - b))
    | 4 => -- OP_MUL
      match pop vm with
      | none => .stop (.Exited .StackUnderflow) vm
      | some (b, vm) =>
        match pop vm with
        | none => .stop (.Exited .StackUnderflow) vm
        | some (a, vm) => pushK vm (wrap32 (a * b))
    | 5 => -- OP_DIV
      match pop vm with
      | none => .stop (.Exited .StackUnderflow) vm
      | some (b, vm) =>
        match pop vm with
        | none => .stop (.Exited .StackUnderflow) vm
        | some (a, vm) =>
          if b = 0 then .stop (.Returned .DivisionByZero) vm
          else pushK vm (wrap32 (Int.tdiv a b))
    | 6 => -- OP_PRINT
      match pop vm with
      | none => .stop (.Exited .StackUnderflow) vm
      | some (v, vm) => .next { vm with out := vm.out ++ toString v ++ "\n" }
    | 7 => -- OP_DUP
      if vm.sp ≤ 0 then .stop (.Returned .StackUnderflow) vm
      else pushK vm (vm.stack.getD (vm.sp - 1).toNat 0)
    | 8 => -- OP_POP
      match pop vm with
      | none => .stop (.Exited .StackUnderflow) vm
      | some (_, vm) => .next vm
    | _ => -- default
      .stop (.Returned (.UnknownOpcode op (vm.ic - 1))) vm

/-- The `while` loop of `run`, with a bound on the number of iterations. -/
def runLoop : Nat → VM → Outcome × VM
  | 0, vm => if vm.ic < vm.code_len then (.OutOfFuel, vm) else (.EndOfStream, vm)
  | fuel + 1, vm =>
    if vm.ic < vm.code_len then
      match step vm with
      | .next vm1 => runLoop fuel vm1
      | .stop o vm1 => (o, vm1)
    else (.EndOfStream, vm)

/-- `run`: the loop with as many iterations as there are bytes left, which is
always enough (every iteration consumes at least one byte). -/
def run (vm : VM) : Outcome × VM :=
  runLoop (vm.code_len - vm.ic) vm

/-- States that the loop of `run` passes through, starting from `vm0`. -/
inductive Reach (vm0 : VM) : VM → Prop where
  | start : Reach vm0 vm0
  | next {vm vm1 : VM} : Reach vm0 vm → step vm = .next vm1 → Reach vm0 vm1

/-- Specification-side encoder: the four bytes of the little-endian
two's-complement representation of `v`, least significant byte first. -/
def encode_i32 (v : Int) : List Byte :=
  let u := (v % 4294967296).toNat
  [Fin.ofNat u, Fin.ofNat (u / 256), Fin.ofNat (u / 65536), Fin.ofNat (u / 16777216)]

/-- The bytes of the instruction `PUSH v`. -/
def ins_push (v : Int) : List Byte := 1 :: encode_i32 v


/-- A state for worked examples: bytecode `code`, cursor `ic`, the live cells
`xs` (bottom first) in a 1024-cell stack, and no output yet. -/
def vm_with (code : List Byte) (ic : Nat) (xs : List Int) : VM :=
  { code := code, ic := ic, stack := xs ++ List.replicate (STACK_SIZE - xs.length) 0,
    sp := xs.length, out := "" }

/-- The array `example_prog`: `PUSH 10, PUSH 20, ADD, PUSH 2, MUL, PRINT, HALT`. -/
def example_prog : List Byte :=
  [0x01, 0x0a, 0x00, 0x00, 0x00,
   0x01, 0x14, 0x00, 0x00, 0x00,
   0x02,
   0x01, 0x02, 0x00, 0x00, 0x00,
   0x04,
   0x06,
   0x00]

/-- The exit status of the process once the loop of `run` has ended: 1 when
`push` or `pop` called `exit(1)`; otherwise `run` returns to `main`, which
executes `return 0`. -/
def exit_code : Outcome → Nat
  | .Exited _ => 1
  | _ => 0

/-- `main`, from the point where the program bytes are known: `file` is the
content read from the file named on the command line, or `none` when no
argument is given and `example_prog` is run.  A file of length 0 is rejected
("Empty or invalid file", exit status 1) before any run.  The result is the exit
status and the text written to `stdout`. -/
def main (file : Option (List Byte)) : Nat × String :=
  match file with
  | some bytes =>
    if bytes.length ≤ 0 then (1, "")
    else (exit_code (run (vm_init bytes)).1, (run (vm_init bytes)).2.out)
  | none => (exit_code (run (vm_init example_prog)).1, (run (vm_init example_prog)).2.out)

/-- `ReachIn vm0 n vm`: the loop of `run` gets from `vm0` to `vm` in exactly `n`
iterations, each of which executed one instruction and went round again. -/
inductive ReachIn (vm0 : VM) : Nat → VM → Prop where
  | start : ReachIn vm0 0 vm0
  | next {n : Nat} {vm vm1 : VM} : ReachIn vm0 n vm → step vm = .next vm1 →
      ReachIn vm0 (n + 1) vm1

/-- The state `vm` of a run of a longer program: the bytes `q` follow the code. -/
def VM.extend (vm : VM) (q : List Byte) : VM :=
  { vm with code := vm.code ++ q }

theorem wrap32_isInt32 (x : Int) : isInt32 (wrap32 x) := by
  unfold isInt32 wrap32 INT32_MIN INT32_MAX
  simp only
  split <;> omega

theorem wrap32_emod (x : Int) : wrap32 x % 4294967296 = x % 4294967296 := by
  unfold wrap32
  simp only
  split <;> omega

theorem wrap32_of_isInt32 {x : Int} (h : isInt32 x) : wrap32 x = x := by
  unfold isInt32 INT32_MIN INT32_MAX at h
  unfold wrap32
  simp only
  split <;> omega

theorem take_set_self {l : List Int} {n : Nat} (v : Int) :
    (l.set n v).take n = l.take n := by
  rw [List.set_take, List.set_eq_of_length_le]
  simp

theorem take_set_succ {l : List Int} {n : Nat} (v : Int) (h : n < l.length) :
    (l.set n v).take (n + 1) = l.take n ++ [v] := by
  rw [List.take_succ, take_set_self]
  simp [List.getElem?_set, h]

theorem getD_append_length (r t : List Int) (a : Int) :
    (r ++ a :: t).getD r.length 0 = a := by
  induction r with
  | nil => rfl
  | cons x r ih => simpa using ih

theorem getD_append_length_succ (r t : List Int) (a b : Int) :
    (r ++ a :: b :: t).getD (r.length + 1) 0 = b := by
  induction r with
  | nil => rfl
  | cons x r ih => simpa using ih

/-- Reading off the two topmost cells and the cells below them. -/
theorem elems_two {vm : VM} {rest : List Int} {a b : Int}
    (hlen : vm.stack.length = STACK_SIZE) (hsp : vm.sp ≤ STACK_SIZE)
    (h : vm.elems = rest ++ [a, b]) :
    vm.sp = rest.length + 2 ∧ vm.stack.getD (rest.length + 1) 0 = b ∧
      vm.stack.getD rest.length 0 = a ∧ vm.stack.take rest.length = rest := by
  unfold VM.elems at h
  unfold STACK_SIZE at hlen hsp
  have hl := congrArg List.length h
  simp at hl
  have hsp2 : vm.sp = rest.length + 2 := by omega
  have hs : vm.stack = rest ++ [a, b] ++ vm.stack.drop vm.sp.toNat := by
    rw [← h, List.take_append_drop]
  refine ⟨hsp2, ?_, ?_, ?_⟩
  · rw [hs]; simpa using getD_append_length_succ rest _ a b
  · rw [hs]; simpa using getD_append_length rest _ a
  · rw [hs]; simp

/-- Reading off the topmost cell and the cells below it. -/
theorem elems_one {vm : VM} {rest : List Int} {a : Int}
    (hlen : vm.stack.length = STACK_SIZE) (hsp : vm.sp ≤ STACK_SIZE)
    (h : vm.elems = rest ++ [a]) :
    vm.sp = rest.length + 1 ∧ vm.stack.getD rest.length 0 = a ∧
      vm.stack.take rest.length = rest := by
  unfold VM.elems at h
  unfold STACK_SIZE at hlen hsp
  have hl := congrArg List.length h
  simp at hl
  have hsp2 : vm.sp = rest.length + 1 := by omega
  have hs : vm.stack = rest ++ [a] ++ vm.stack.drop vm.sp.toNat := by
    rw [← h, List.take_append_drop]
  refine ⟨hsp2, ?_, ?_⟩
  · rw [hs]; simpa using getD_append_length rest _ a
  · rw [hs]; simp


theorem vm_with_length (code : List Byte) (ic : Nat) (xs : List Int)
    (h : xs.length ≤ STACK_SIZE) : (vm_with code ic xs).stack.length = STACK_SIZE := by
  simp only [vm_with, List.length_append, List.length_replicate]
  omega

theorem vm_with_elems (code : List Byte) (ic : Nat) (xs : List Int) :
    (vm_with code ic xs).elems = xs := by
  simp [vm_with, VM.elems]

theorem vm_with_sp (code : List Byte) (ic : Nat) (xs : List Int) :
    (vm_with code ic xs).sp = xs.length := rfl

theorem vm_init_length (code : List Byte) : (vm_init code).stack.length = STACK_SIZE := by
  simp only [vm_init, List.length_replicate]

theorem vm_init_elems (code : List Byte) : (vm_init code).elems = [] := by
  simp [vm_init, VM.elems]

/-- The live cells after a successful `pop` are the live cells without the top. -/
theorem pop_top (vm : VM) {rest : List Int} {a : Int}
    (hlen : vm.stack.length = STACK_SIZE) (hsp : vm.sp ≤ STACK_SIZE)
    (h : vm.elems = rest ++ [a]) :
    pop vm = some (a, { vm with sp := vm.sp - 1 }) ∧
      ({ vm with sp := vm.sp - 1 } : VM).elems = rest := by
  obtain ⟨h1, h2, h3⟩ := elems_one hlen hsp h
  have e : (vm.sp - 1).toNat = rest.length := by omega
  constructor
  · unfold pop
    rw [if_neg (by omega), e, h2]
  · show List.take (vm.sp - 1).toNat vm.stack = rest
    rw [e, h3]

/-- A `push` below capacity appends one live cell. -/
theorem push_ok (vm : VM) (v : Int)
    (hlen : vm.stack.length = STACK_SIZE) (h0 : 0 ≤ vm.sp) (hsp : vm.sp < STACK_SIZE) :
    push vm v = some { vm with stack := vm.stack.set vm.sp.toNat v, sp := vm.sp + 1 } ∧
      ({ vm with stack := vm.stack.set vm.sp.toNat v, sp := vm.sp + 1 } : VM).elems
        = vm.elems ++ [v] := by
  unfold STACK_SIZE at hlen hsp
  constructor
  · unfold push STACK_SIZE
    rw [if_neg (by omega)]
  · show List.take (vm.sp + 1).toNat (vm.stack.set vm.sp.toNat v) = List.take vm.sp.toNat vm.stack ++ [v]
    have e : (vm.sp + 1).toNat = vm.sp.toNat + 1 := by omega
    rw [e, take_set_succ v (by omega)]

/-- A `push` at capacity takes the `exit(1)` branch. -/
theorem push_full (vm : VM) (v : Int) (hsp : (STACK_SIZE : Int) ≤ vm.sp) : push vm v = none := by
  unfold push
  rw [if_pos hsp]

/-- A `pop` on an empty stack takes the `exit(1)` branch. -/
theorem pop_empty {vm : VM} (hsp : vm.sp ≤ 0) : pop vm = none := by
  unfold pop
  rw [if_pos hsp]

/-- The opcode fetch when bytes remain. -/
theorem read_u8_ok {vm : VM} (hic : vm.ic < vm.code_len) :
    vm_read_u8 vm = some (vm.code.getD vm.ic 0, { vm with ic := vm.ic + 1 }) := by
  unfold vm_read_u8
  rw [if_neg (by omega)]

/-- Two `pop`s followed by a `push` on a stack that holds at least two cells. -/
theorem pop_pop_push (vm : VM) {rest : List Int} {a b : Int} (r : Int)
    (hlen : vm.stack.length = STACK_SIZE) (hsp : vm.sp ≤ STACK_SIZE)
    (h : vm.elems = rest ++ [a, b]) :
    pop vm = some (b, { vm with sp := vm.sp - 1 }) ∧
    pop { vm with sp := vm.sp - 1 } = some (a, { vm with sp := vm.sp - 1 - 1 }) ∧
    pushK { vm with sp := vm.sp - 1 - 1 } r =
      .next { vm with stack := vm.stack.set (vm.sp - 1 - 1).toNat r, sp := vm.sp - 1 - 1 + 1 } ∧
    ({ vm with sp := vm.sp - 1 - 1 } : VM).elems = rest ∧
    ({ vm with stack := vm.stack.set (vm.sp - 1 - 1).toNat r,
               sp := vm.sp - 1 - 1 + 1 } : VM).elems = rest ++ [r] := by
  have h2 : vm.elems = (rest ++ [a]) ++ [b] := by simp [h]
  obtain ⟨p1, e1⟩ := pop_top vm hlen hsp h2
  have hsp0 := (elems_two hlen hsp h).1
  have hsp1 : ({ vm with sp := vm.sp - 1 } : VM).sp ≤ STACK_SIZE := by
    show vm.sp - 1 ≤ _
    omega
  obtain ⟨p2, e2⟩ := pop_top ({ vm with sp := vm.sp - 1 }) hlen hsp1 e1
  have q := push_ok ({ vm with sp := vm.sp - 1 - 1 }) r hlen
    (by show 0 ≤ vm.sp - 1 - 1; omega) (by show vm.sp - 1 - 1 < _; omega)
  refine ⟨p1, p2, ?_, e2, ?_⟩
  · unfold pushK
    rw [q.1]
  · have := q.2
    rw [e2] at this
    exact this

/-- Effect of one loop iteration at an `ADD` (2), `SUB` (3) or `MUL` (4) opcode. -/
theorem step_arith {vm : VM} {rest : List Int} {a b : Int}
    (hlen : vm.stack.length = STACK_SIZE) (hsp : vm.sp ≤ STACK_SIZE)
    (hic : vm.ic < vm.code_len) (h : vm.elems = rest ++ [a, b]) :
    (vm.code.getD vm.ic 0 = 2 → step vm = .next { vm with
        ic := vm.ic + 1, stack := vm.stack.set (vm.sp - 1 - 1).toNat (wrap32 (a + b)),
        sp := vm.sp - 1 - 1 + 1 }) ∧
    (vm.code.getD vm.ic 0 = 3 → step vm = .next { vm with
        ic := vm.ic + 1, stack := vm.stack.set (vm.sp - 1 - 1).toNat (wrap32 (a - b)),
        sp := vm.sp - 1 - 1 + 1 }) ∧
    (vm.code.getD vm.ic 0 = 4 → step vm = .next { vm with
        ic := vm.ic + 1, stack := vm.stack.set (vm.sp - 1 - 1).toNat (wrap32 (a * b)),
        sp := vm.sp - 1 - 1 + 1 }) := by
  have key : ∀ r, _ := fun r =>
    pop_pop_push ({ vm with ic := vm.ic + 1 }) r hlen hsp h
  refine ⟨fun hop => ?_, fun hop => ?_, fun hop => ?_⟩
  · obtain ⟨p1, p2, p3, -, -⟩ := key (wrap32 (a + b))
    unfold step
    rw [read_u8_ok hic, hop]
    simp only [p1, p2, p3]
  · obtain ⟨p1, p2, p3, -, -⟩ := key (wrap32 (a - b))
    unfold step
    rw [read_u8_ok hic, hop]
    simp only [p1, p2, p3]
  · obtain ⟨p1, p2, p3, -, -⟩ := key (wrap32 (a * b))
    unfold step
    rw [read_u8_ok hic, hop]
    simp only [p1, p2, p3]

/-- Effect of one loop iteration at a `DIV` (5) opcode on a stack that holds at
least two cells. -/
theorem step_div {vm : VM} {rest : List Int} {a b : Int}
    (hlen : vm.stack.length = STACK_SIZE) (hsp : vm.sp ≤ STACK_SIZE)
    (hic : vm.ic < vm.code_len) (h : vm.elems = rest ++ [a, b])
    (hop : vm.code.getD vm.ic 0 = 5) :
    step vm =
      if b = 0 then .stop (.Returned .DivisionByZero) { vm with ic := vm.ic + 1, sp := vm.sp - 1 - 1 }
      else .next { vm with
        ic := vm.ic + 1, stack := vm.stack.set (vm.sp - 1 - 1).toNat (wrap32 (Int.tdiv a b)),
        sp := vm.sp - 1 - 1 + 1 } := by
  obtain ⟨p1, p2, p3, -, -⟩ :=
    pop_pop_push ({ vm with ic := vm.ic + 1 }) (wrap32 (Int.tdiv a b)) hlen hsp h
  unfold step
  rw [read_u8_ok hic, hop]
  simp only [p1, p2, p3]

/-- The truncated quotient of two `int32_t` values with a non-zero divisor is
an `int32_t` value, except for `INT32_MIN / -1`. -/
theorem tdiv_isInt32 {a b : Int} (ha : isInt32 a) (hb : isInt32 b) (hb0 : b ≠ 0)
    (hne : ¬ (a = INT32_MIN ∧ b = -1)) : isInt32 (Int.tdiv a b) := by
  unfold isInt32 INT32_MIN INT32_MAX at *
  by_cases h1 : b = 1
  · subst h1; simp; omega
  by_cases h2 : b = -1
  · subst h2
    have : Int.tdiv a (-1) = -a := by
      rw [Int.tdiv_neg, Int.tdiv_one]
    rw [this]
    omega
  have hn := Int.natAbs_tdiv a b
  have hb2 : 2 ≤ b.natAbs := by omega
  have hle : a.natAbs.div b.natAbs ≤ a.natAbs / 2 := by
    show a.natAbs / b.natAbs ≤ a.natAbs / 2
    exact Nat.div_le_div_left hb2 (by decide)
  omega

theorem read_u8_eq_some {vm vm1 : VM} {op : Byte} :
    vm_read_u8 vm = some (op, vm1) ↔
      vm.ic < vm.code_len ∧ op = vm.code.getD vm.ic 0 ∧ vm1 = { vm with ic := vm.ic + 1 } := by
  unfold vm_read_u8
  split
  · simp only [reduceCtorEq, false_iff]; omega
  · simp only [Option.some.injEq, Prod.mk.injEq]
    constructor
    · rintro ⟨rfl, rfl⟩; exact ⟨by omega, rfl, rfl⟩
    · rintro ⟨-, rfl, rfl⟩; exact ⟨rfl, rfl⟩

theorem read_u8_eq_none {vm : VM} : vm_read_u8 vm = none ↔ vm.code_len ≤ vm.ic := by
  unfold vm_read_u8
  split
  · simp only [true_iff]; omega
  · simp only [reduceCtorEq, false_iff]; omega

theorem read_i32_eq_some {vm vm1 : VM} {v : Int} :
    vm_read_i32 vm = some (v, vm1) ↔
      vm.ic + 4 ≤ vm.code_len ∧
      v = wrap32 (Int.ofNat ((vm.code.getD vm.ic 0).val ||| ((vm.code.getD (vm.ic + 1) 0).val <<< 8)
            ||| ((vm.code.getD (vm.ic + 2) 0).val <<< 16)
            ||| ((vm.code.getD (vm.ic + 3) 0).val <<< 24))) ∧
      vm1 = { vm with ic := vm.ic + 4 } := by
  unfold vm_read_i32
  split
  · simp only [reduceCtorEq, false_iff]; omega
  · simp only [Option.some.injEq, Prod.mk.injEq]
    constructor
    · rintro ⟨h1, h2⟩
      exact ⟨by omega, h1.symm, h2.symm⟩
    · rintro ⟨-, h1, h2⟩
      exact ⟨h1.symm, h2.symm⟩

theorem read_i32_eq_none {vm : VM} : vm_read_i32 vm = none ↔ vm.code_len < vm.ic + 4 := by
  unfold vm_read_i32
  split
  · simp only [true_iff]; omega
  · simp only [reduceCtorEq, false_iff]; omega

theorem pop_eq_some {vm vm1 : VM} {v : Int} :
    pop vm = some (v, vm1) ↔
      0 < vm.sp ∧ v = vm.stack.getD (vm.sp - 1).toNat 0 ∧ vm1 = { vm with sp := vm.sp - 1 } := by
  unfold pop
  split
  · simp only [reduceCtorEq, false_iff]; omega
  · simp only [Option.some.injEq, Prod.mk.injEq]
    constructor
    · rintro ⟨rfl, rfl⟩; exact ⟨by omega, rfl, rfl⟩
    · rintro ⟨-, rfl, rfl⟩; exact ⟨rfl, rfl⟩

theorem pop_eq_none {vm : VM} : pop vm = none ↔ vm.sp ≤ 0 := by
  unfold pop
  split
  · simp only [true_iff]; omega
  · simp only [reduceCtorEq, false_iff]; omega

theorem pushK_eq_next {vm vm1 : VM} {v : Int} :
    pushK vm v = .next vm1 ↔
      vm.sp < STACK_SIZE ∧
      vm1 = { vm with stack := vm.stack.set vm.sp.toNat v, sp := vm.sp + 1 } := by
  unfold pushK push
  split
  · next hp =>
    split at hp
    · simp only [reduceCtorEq, false_iff]; omega
    · cases hp
  · next vm2 hp =>
    split at hp
    · cases hp
    · simp only [Option.some.injEq] at hp
      subst hp
      simp only [Step.next.injEq]
      constructor
      · rintro rfl; exact ⟨by omega, rfl⟩
      · rintro ⟨-, rfl⟩; rfl

theorem pushK_eq_stop {vm vm1 : VM} {v : Int} {o : Outcome} :
    pushK vm v = .stop o vm1 ↔
      (STACK_SIZE : Int) ≤ vm.sp ∧ o = .Exited .StackOverflow ∧ vm1 = vm := by
  unfold pushK push
  split
  · next hp =>
    split at hp
    · simp only [Step.stop.injEq]
      constructor
      · rintro ⟨rfl, rfl⟩; exact ⟨by omega, rfl, rfl⟩
      · rintro ⟨-, rfl, rfl⟩; exact ⟨rfl, rfl⟩
    · cases hp
  · next vm2 hp =>
    split at hp
    · cases hp
    · simp only [reduceCtorEq, false_iff]; omega

/-- What a loop iteration that goes round again leaves unchanged, and how far
the cursor and the stack pointer can have moved. -/
theorem step_next_inv {vm vm1 : VM} (h : step vm = .next vm1) :
    vm1.code = vm.code ∧ vm.ic < vm1.ic ∧ vm1.ic ≤ vm.code_len ∧
    vm1.stack.length = vm.stack.length ∧
    (0 ≤ vm.sp → vm.sp ≤ STACK_SIZE → 0 ≤ vm1.sp ∧ vm1.sp ≤ STACK_SIZE) := by
  unfold step at h
  repeat' split at h
  all_goals simp only [read_u8_eq_some, read_i32_eq_some, pop_eq_some, pushK_eq_next,
    Step.next.injEq, reduceCtorEq, VM.code_len, STACK_SIZE] at *
  all_goals try subst h
  all_goals simp_all only [List.length_set, true_and, Nat.cast_ofNat]
  all_goals omega

/-- What a loop iteration that leaves the loop leaves unchanged. -/
theorem step_stop_inv {vm vm1 : VM} {o : Outcome} (h : step vm = .stop o vm1) :
    vm1.code = vm.code ∧ vm.ic ≤ vm1.ic ∧ vm1.out = vm.out ∧
    vm1.stack = vm.stack ∧ o ≠ .OutOfFuel ∧
    (0 ≤ vm.sp → vm.sp ≤ STACK_SIZE → 0 ≤ vm1.sp ∧ vm1.sp ≤ STACK_SIZE) := by
  unfold step at h
  repeat' split at h
  all_goals simp only [read_u8_eq_some, read_i32_eq_some, pop_eq_some, pushK_eq_stop,
    Step.stop.injEq, reduceCtorEq, VM.code_len, STACK_SIZE] at *
  all_goals try (obtain ⟨rfl, rfl⟩ := h)
  all_goals simp_all only [List.length_set, true_and, Nat.cast_ofNat, ne_eq, reduceCtorEq,
    not_false_eq_true, le_refl, implies_true, and_self, and_true]
  all_goals omega

/-- The cursor after a loop iteration that goes round again: one byte further,
or five for a `PUSH` (opcode and operand). -/
theorem step_next_ic {vm vm1 : VM} (h : step vm = .next vm1) :
    (vm.code.getD vm.ic 0 ≠ 1 ∧ vm1.ic = vm.ic + 1) ∨
    (vm.code.getD vm.ic 0 = 1 ∧ vm1.ic = vm.ic + 1 + 4) := by
  unfold step at h
  repeat' split at h
  all_goals simp only [read_u8_eq_some, read_i32_eq_some, pop_eq_some, pushK_eq_next,
    Step.next.injEq, reduceCtorEq, VM.code_len, STACK_SIZE] at *
  all_goals try subst h
  all_goals simp_all only [List.length_set, true_and, Nat.cast_ofNat]
  all_goals first
    | (left; refine ⟨fun hx => ?_, trivial⟩; simp_all)
    | (right; exact ⟨Fin.ext (by assumption), trivial⟩)

/-- The cursor after a loop iteration that leaves the loop stays within the code. -/
theorem step_stop_ic {vm vm1 : VM} {o : Outcome} (h : step vm = .stop o vm1)
    (hle : vm.ic ≤ vm.code_len) : vm1.ic ≤ vm.code_len := by
  unfold step at h
  repeat' split at h
  all_goals simp only [read_u8_eq_some, read_i32_eq_some, pop_eq_some, pushK_eq_stop,
    Step.stop.injEq, reduceCtorEq, VM.code_len, STACK_SIZE] at *
  all_goals try (obtain ⟨rfl, rfl⟩ := h)
  all_goals simp_all only [List.length_set, true_and, Nat.cast_ofNat, ne_eq, reduceCtorEq,
    not_false_eq_true, le_refl, implies_true, and_self, and_true]
  all_goals omega

/-- A loop iteration in front of a run. -/
theorem Reach.head {vm vm1 vm2 : VM} (hs : step vm = .next vm1) (h : Reach vm1 vm2) :
    Reach vm vm2 := by
  induction h with
  | start => exact Reach.next Reach.start hs
  | next _ hs2 ih => exact Reach.next ih hs2

/-- Any two iteration bounds that cover the bytes left give the same result. -/
theorem runLoop_enough (n : Nat) : ∀ (m : Nat) (vm : VM),
    vm.code_len - vm.ic ≤ n → vm.code_len - vm.ic ≤ m → runLoop n vm = runLoop m vm := by
  induction n with
  | zero =>
    intro m vm hn _
    have hge : ¬ vm.ic < vm.code_len := by omega
    cases m with
    | zero => rfl
    | succ m => simp only [runLoop, if_neg hge]
  | succ n ih =>
    intro m vm hn hm
    cases m with
    | zero =>
      have hge : ¬ vm.ic < vm.code_len := by omega
      simp only [runLoop, if_neg hge]
    | succ m =>
      simp only [runLoop]
      split
      · cases hs : step vm with
        | next vm1 =>
          obtain ⟨hc, hlt, hle, -⟩ := step_next_inv hs
          have e : vm1.code_len = vm.code_len := by unfold VM.code_len; rw [hc]
          exact ih m vm1 (by omega) (by omega)
        | stop o vm1 => rfl
      · rfl

/-- With enough iterations the bounded loop is `run`. -/
theorem runLoop_eq_run {n : Nat} {vm : VM} (h : vm.code_len - vm.ic ≤ n) :
    runLoop n vm = run vm :=
  runLoop_enough n _ vm h (Nat.le_refl _)

/-- `run` after an iteration that goes round again. -/
theorem run_next {vm vm1 : VM} (h : step vm = .next vm1) : run vm = run vm1 := by
  obtain ⟨hc, hlt, hle, -⟩ := step_next_inv h
  have e : vm1.code_len = vm.code_len := by unfold VM.code_len; rw [hc]
  have hk : vm.code_len - vm.ic = (vm.code_len - vm.ic - 1) + 1 := by omega
  unfold run
  rw [hk, runLoop, if_pos (by omega), h]
  exact runLoop_enough _ _ vm1 (by omega) (by omega)

/-- `run` when the iteration leaves the loop. -/
theorem run_stop {vm vm1 : VM} {o : Outcome} (h : step vm = .stop o vm1) :
    run vm = (o, vm1) := by
  by_cases hic : vm.ic < vm.code_len
  · have hk : vm.code_len - vm.ic = (vm.code_len - vm.ic - 1) + 1 := by omega
    unfold run
    rw [hk, runLoop, if_pos hic, h]
  · have hr : vm_read_u8 vm = none := read_u8_eq_none.2 (by omega)
    unfold step at h
    rw [hr] at h
    simp only [Step.stop.injEq] at h
    obtain ⟨rfl, rfl⟩ := h
    have hk : vm.code_len - vm.ic = 0 := by omega
    unfold run
    rw [hk, runLoop, if_neg hic]

/-- `run` from the start goes through every state the loop reaches. -/
theorem run_reach {vm0 vm : VM} (h : Reach vm0 vm) : run vm0 = run vm := by
  induction h with
  | start => rfl
  | next _ hs ih => rw [ih, run_next hs]

/-- The loop of `run` always ends on its own: the iteration bound is never hit. -/
theorem run_ne_OutOfFuel (vm : VM) : (run vm).1 ≠ .OutOfFuel := by
  generalize hn : vm.code_len - vm.ic = n
  induction n using Nat.strong_induction_on generalizing vm with
  | _ n ih =>
    cases hs : step vm with
    | next vm1 =>
      obtain ⟨hc, hlt, hle, -⟩ := step_next_inv hs
      have e : vm1.code_len = vm.code_len := by unfold VM.code_len; rw [hc]
      rw [run_next hs]
      exact ih (vm1.code_len - vm1.ic) (by omega) vm1 rfl
    | stop o vm1 =>
      rw [run_stop hs]
      exact (step_stop_inv hs).2.2.2.2.1

/-- Preservation of code, stack length and the bounds on `sp` along the loop. -/
theorem reach_inv {vm0 vm : VM} (h : Reach vm0 vm) :
    vm.code = vm0.code ∧ vm0.ic ≤ vm.ic ∧ vm.stack.length = vm0.stack.length ∧
    (vm0.ic ≤ vm0.code_len → vm.ic ≤ vm.code_len) ∧
    (0 ≤ vm0.sp → vm0.sp ≤ STACK_SIZE → 0 ≤ vm.sp ∧ vm.sp ≤ STACK_SIZE) := by
  induction h with
  | start => exact ⟨rfl, Nat.le_refl _, rfl, fun h => h, fun h1 h2 => ⟨h1, h2⟩⟩
  | next _ hs ih =>
    obtain ⟨i1, i2, i3, i4, i5⟩ := ih
    obtain ⟨s1, s2, s3, s4, s5⟩ := step_next_inv hs
    refine ⟨by rw [s1, i1], by omega, by rw [s4, i3], ?_, ?_⟩
    · intro _
      unfold VM.code_len at *
      rw [s1]
      exact s3
    · intro h1 h2
      obtain ⟨a, b⟩ := i5 h1 h2
      exact s5 a b

/-- Every run ends in an iteration that leaves the loop, at a state the loop reaches. -/
theorem run_final (vm : VM) :
    ∃ vm1, Reach vm vm1 ∧ step vm1 = .stop (run vm).1 (run vm).2 := by
  generalize hn : vm.code_len - vm.ic = n
  induction n using Nat.strong_induction_on generalizing vm with
  | _ n ih =>
    cases hs : step vm with
    | next vm1 =>
      obtain ⟨hc, hlt, hle, -⟩ := step_next_inv hs
      have e : vm1.code_len = vm.code_len := by unfold VM.code_len; rw [hc]
      obtain ⟨vm2, r, h2⟩ := ih (vm1.code_len - vm1.ic) (by omega) vm1 rfl
      rw [run_next hs]
      exact ⟨vm2, Reach.head hs r, h2⟩
    | stop o vm1 =>
      rw [run_stop hs]
      exact ⟨vm, Reach.start, hs⟩

/-- For bytes, the shifts and bitwise ors of `vm_read_i32` add up the
little-endian digits. -/
theorem le32_or_eq_add {b0 b1 b2 b3 : Nat} (h0 : b0 < 256) (h1 : b1 < 256) (h2 : b2 < 256)
    (_h3 : b3 < 256) :
    b0 ||| (b1 <<< 8) ||| (b2 <<< 16) ||| (b3 <<< 24)
      = b0 + 256 * b1 + 65536 * b2 + 16777216 * b3 := by
  have e1 : b0 ||| (b1 <<< 8) = b0 + 256 * b1 := by
    rw [Nat.lor_comm, Nat.shiftLeft_eq, Nat.mul_comm b1]
    have := Nat.mul_add_lt_is_or (i := 8) (b := b0) (by omega) b1
    rw [← this]
    omega
  have e2 : (b0 + 256 * b1) ||| (b2 <<< 16) = b0 + 256 * b1 + 65536 * b2 := by
    rw [Nat.lor_comm, Nat.shiftLeft_eq, Nat.mul_comm b2]
    have := Nat.mul_add_lt_is_or (i := 16) (b := b0 + 256 * b1) (by omega) b2
    rw [← this]
    omega
  have e3 : (b0 + 256 * b1 + 65536 * b2) ||| (b3 <<< 24)
      = b0 + 256 * b1 + 65536 * b2 + 16777216 * b3 := by
    rw [Nat.lor_comm, Nat.shiftLeft_eq, Nat.mul_comm b3]
    have := Nat.mul_add_lt_is_or (i := 24) (b := b0 + 256 * b1 + 65536 * b2) (by omega) b3
    rw [← this]
    omega
  rw [e1, e2, e3]

/-- The bytes at the cursor, read through `getD`. -/
theorem getD_of_drop_take {code : List Byte} {ic : Nat} {b0 b1 b2 b3 : Byte}
    (h : (code.drop ic).take 4 = [b0, b1, b2, b3]) :
    ic + 4 ≤ code.length ∧ code.getD ic 0 = b0 ∧ code.getD (ic + 1) 0 = b1 ∧
      code.getD (ic + 2) 0 = b2 ∧ code.getD (ic + 3) 0 = b3 := by
  have hl := congrArg List.length h
  simp only [List.length_take, List.length_drop, List.length_cons, List.length_nil] at hl
  have key : ∀ i, i < 4 → code[ic + i]? = [b0, b1, b2, b3][i]? := by
    intro i hi
    rw [← h, List.getElem?_take_of_lt hi, List.getElem?_drop]
  have k0 := key 0 (by omega)
  have k1 := key 1 (by omega)
  have k2 := key 2 (by omega)
  have k3 := key 3 (by omega)
  simp only [Nat.add_zero, List.getElem?_cons_zero, List.getElem?_cons_succ] at k0 k1 k2 k3
  refine ⟨by omega, ?_, ?_, ?_, ?_⟩ <;> simp [List.getD_eq_getElem?_getD, *]

/-- The value that `vm_read_i32` returns, in terms of the four bytes at the cursor. -/
theorem read_i32_bytes {vm : VM} {b0 b1 b2 b3 : Byte}
    (h : (vm.code.drop vm.ic).take 4 = [b0, b1, b2, b3]) :
    vm_read_i32 vm =
      some (wrap32 (b0.val + 256 * b1.val + 65536 * b2.val + 16777216 * b3.val),
            { vm with ic := vm.ic + 4 }) := by
  obtain ⟨hl, g0, g1, g2, g3⟩ := getD_of_drop_take h
  rw [read_i32_eq_some]
  refine ⟨hl, ?_, rfl⟩
  rw [g0, g1, g2, g3, le32_or_eq_add b0.isLt b1.isLt b2.isLt b3.isLt]
  congr 1

/-- Decoding the little-endian encoding of an `int32_t` value gives the value back. -/
theorem read_i32_encode (vm : VM) (v : Int) (hv : isInt32 v)
    (h : (vm.code.drop vm.ic).take 4 = encode_i32 v) :
    vm_read_i32 vm = some (v, { vm with ic := vm.ic + 4 }) := by
  unfold encode_i32 at h
  rw [read_i32_bytes h]
  have hw : wrap32 (((v % 4294967296).toNat : Nat) : Int) = v := by
    have e : (((v % 4294967296).toNat : Nat) : Int) = v % 4294967296 := by omega
    rw [e]
    have := wrap32_emod v
    have r := wrap32_isInt32 (v % 4294967296)
    have r2 := wrap32_emod (v % 4294967296)
    unfold isInt32 INT32_MIN INT32_MAX at hv r
    omega
  have hsum : ∀ u : Nat, u < 4294967296 →
      (((Fin.ofNat u : Byte).val : Int) + 256 * ((Fin.ofNat (u / 256) : Byte).val : Int)
        + 65536 * ((Fin.ofNat (u / 65536) : Byte).val : Int)
        + 16777216 * ((Fin.ofNat (u / 16777216) : Byte).val : Int)) = (u : Int) := by
    intro u hu
    show ((u % 256 : Nat) : Int) + 256 * ((u / 256 % 256 : Nat) : Int)
        + 65536 * ((u / 65536 % 256 : Nat) : Int)
        + 16777216 * ((u / 16777216 % 256 : Nat) : Int) = (u : Int)
    omega
  rw [hsum _ (by omega), hw]


/-- C4: if the four bytes at the cursor are the little-endian two's-complement
encoding of an `int32_t` value `v`, then `vm_read_i32` succeeds and returns
exactly `v` (and moves the cursor past the four bytes). -/
theorem read_i32_roundtrip (vm : VM) (v : Int) (hv : isInt32 v)
    (h : (vm.code.drop vm.ic).take 4 = encode_i32 v) :
    vm_read_i32 vm = some (v, { vm with ic := vm.ic + 4 }) :=
  read_i32_encode vm v hv h

/-- Worked instances of C4 at the two boundaries `INT32_MIN` and `INT32_MAX`. -/
theorem read_i32_roundtrip_witness :
    vm_read_i32 (vm_with [0x00, 0x00, 0x00, 0x80] 0 []) =
        some (-2147483648, { vm_with [0x00, 0x00, 0x00, 0x80] 0 [] with ic := 4 }) ∧
    vm_read_i32 (vm_with [0x01, 0xff, 0xff, 0xff, 0x7f, 0x06] 1 []) =
        some (2147483647, { vm_with [0x01, 0xff, 0xff, 0xff, 0x7f, 0x06] 1 [] with ic := 5 }) :=
  ⟨read_i32_roundtrip (vm_with [0x00, 0x00, 0x00, 0x80] 0 []) (-2147483648) (by decide)
      (by decide),
   read_i32_roundtrip (vm_with [0x01, 0xff, 0xff, 0xff, 0x7f, 0x06] 1 []) 2147483647
      (by decide) (by decide)⟩

/-- C5: `vm_read_i32` fails exactly when fewer than four bytes remain
(`ic + 4 > code_len`); when it succeeds the cursor has advanced by 4, nothing
else has changed, and the value is the `int32_t` whose two's-complement bit
pattern is `b0 + 2^8 * b1 + 2^16 * b2 + 2^24 * b3` for the bytes `b0 .. b3` at
`ic .. ic+3`. -/
theorem read_i32_spec (vm : VM) :
    (vm_read_i32 vm = none ↔ vm.ic + 4 > vm.code_len) ∧
    (∀ v vm1, vm_read_i32 vm = some (v, vm1) →
      vm1 = { vm with ic := vm.ic + 4 } ∧ isInt32 v ∧
      ∃ b0 b1 b2 b3 : Byte,
        vm.code[vm.ic]? = some b0 ∧ vm.code[vm.ic + 1]? = some b1 ∧
        vm.code[vm.ic + 2]? = some b2 ∧ vm.code[vm.ic + 3]? = some b3 ∧
        v % 4294967296 = b0.val + 2 ^ 8 * b1.val + 2 ^ 16 * b2.val + 2 ^ 24 * b3.val) := by
  refine ⟨?_, ?_⟩
  · rw [read_i32_eq_none]
  · intro v vm1 h
    obtain ⟨hl, hv, hvm⟩ := read_i32_eq_some.1 h
    unfold VM.code_len at hl
    have g : ∀ i, i < 4 → vm.code[vm.ic + i]? = some (vm.code.getD (vm.ic + i) 0) := by
      intro i hi
      have hlt : vm.ic + i < vm.code.length := by omega
      rw [List.getD_eq_getElem _ _ hlt, List.getElem?_eq_getElem hlt]
    have h0 := (vm.code.getD vm.ic 0).isLt
    have h1 := (vm.code.getD (vm.ic + 1) 0).isLt
    have h2 := (vm.code.getD (vm.ic + 2) 0).isLt
    have h3 := (vm.code.getD (vm.ic + 3) 0).isLt
    refine ⟨hvm, hv ▸ wrap32_isInt32 _, vm.code.getD vm.ic 0, vm.code.getD (vm.ic + 1) 0,
      vm.code.getD (vm.ic + 2) 0, vm.code.getD (vm.ic + 3) 0, g 0 (by omega), g 1 (by omega),
      g 2 (by omega), g 3 (by omega), ?_⟩
    rw [hv, wrap32_emod, le32_or_eq_add h0 h1 h2 h3]
    show ((_ : Nat) : Int) % 4294967296 = _
    omega

/-- Worked instance of C5: the bytes `fe ff ff ff` at the cursor decode to `-2`. -/
theorem read_i32_spec_witness :
    isInt32 (-2) ∧ ∃ b0 b1 b2 b3 : Byte,
      ([0x01, 0xfe, 0xff, 0xff, 0xff] : List Byte)[1]? = some b0 ∧
      ([0x01, 0xfe, 0xff, 0xff, 0xff] : List Byte)[2]? = some b1 ∧
      ([0x01, 0xfe, 0xff, 0xff, 0xff] : List Byte)[3]? = some b2 ∧
      ([0x01, 0xfe, 0xff, 0xff, 0xff] : List Byte)[4]? = some b3 ∧
      (-2 : Int) % 4294967296 = b0.val + 2 ^ 8 * b1.val + 2 ^ 16 * b2.val + 2 ^ 24 * b3.val :=
  ((read_i32_spec
      { code := [0x01, 0xfe, 0xff, 0xff, 0xff], ic := 1, stack := [], sp := 0, out := "" }).2 (-2)
    { code := [0x01, 0xfe, 0xff, 0xff, 0xff], ic := 5, stack := [], sp := 0, out := "" }
    (by decide)).2

/-- C6: `vm_read_u8` fails exactly when `ic >= code_len`; otherwise it returns
the byte stored at index `ic` and increments `ic`, leaving the code, the stack,
the stack pointer and the output unchanged. -/
theorem read_u8_spec (vm : VM) :
    (vm_read_u8 vm = none ↔ vm.ic ≥ vm.code_len) ∧
    (∀ h : vm.ic < vm.code.length,
      vm_read_u8 vm = some (vm.code[vm.ic], { vm with ic := vm.ic + 1 })) ∧
    (∀ b vm1, vm_read_u8 vm = some (b, vm1) →
      vm.code[vm.ic]? = some b ∧ vm1.ic = vm.ic + 1 ∧ vm1.code = vm.code ∧
      vm1.stack = vm.stack ∧ vm1.sp = vm.sp ∧ vm1.out = vm.out) := by
  refine ⟨read_u8_eq_none, ?_, ?_⟩
  · intro h
    rw [read_u8_ok h, List.getD_eq_getElem _ _ h]
  · intro b vm1 h
    obtain ⟨hlt, hb, hvm⟩ := read_u8_eq_some.1 h
    unfold VM.code_len at hlt
    subst hvm
    refine ⟨?_, rfl, rfl, rfl, rfl, rfl⟩
    rw [hb, List.getD_eq_getElem _ _ hlt, List.getElem?_eq_getElem hlt]

/-- Worked instance of C6: fetching the `MUL` opcode at offset 1 of `[1, 4]`. -/
theorem read_u8_spec_witness :
    vm_read_u8 { code := [0x01, 0x04], ic := 1, stack := [7], sp := 1, out := "" } =
      some (0x04, { code := [0x01, 0x04], ic := 2, stack := [7], sp := 1, out := "" }) :=
  (read_u8_spec { code := [0x01, 0x04], ic := 1, stack := [7], sp := 1, out := "" }).2.1
    (by decide)

theorem encode_i32_length (v : Int) : (encode_i32 v).length = 4 := rfl

theorem ins_push_length (v : Int) : (ins_push v).length = 5 := rfl

/-- What it means for the bytes of `PUSH v` to stand at the cursor. -/
theorem push_at_cursor {vm : VM} {v : Int}
    (hcode : (vm.code.drop vm.ic).take 5 = ins_push v) :
    vm.ic + 5 ≤ vm.code_len ∧ vm.code.getD vm.ic 0 = 1 ∧
      (vm.code.drop (vm.ic + 1)).take 4 = encode_i32 v := by
  have hl := congrArg List.length hcode
  simp only [List.length_take, List.length_drop, ins_push_length] at hl
  have hlt : vm.ic < vm.code.length := by omega
  rw [List.drop_eq_getElem_cons hlt, List.take_succ_cons] at hcode
  unfold ins_push at hcode
  simp only [List.cons.injEq] at hcode
  refine ⟨by unfold VM.code_len; omega, ?_, hcode.2⟩
  rw [List.getD_eq_getElem _ _ hlt, hcode.1]

/-- Effect of one loop iteration at a complete `PUSH v` instruction, below capacity. -/
theorem step_push {vm : VM} {v : Int} (hv : isInt32 v)
    (hlen : vm.stack.length = STACK_SIZE) (h0 : 0 ≤ vm.sp) (hsp : vm.sp < STACK_SIZE)
    (hcode : (vm.code.drop vm.ic).take 5 = ins_push v) :
    step vm = .next { vm with
        ic := vm.ic + 1 + 4, stack := vm.stack.set vm.sp.toNat v, sp := vm.sp + 1 } ∧
    VM.elems { vm with
        ic := vm.ic + 1 + 4, stack := vm.stack.set vm.sp.toNat v, sp := vm.sp + 1 }
      = vm.elems ++ [v] := by
  obtain ⟨hic, hop, henc⟩ := push_at_cursor hcode
  have hr := read_i32_encode { vm with ic := vm.ic + 1 } v hv henc
  have hp := push_ok ({ vm with ic := vm.ic + 1 + 4 }) v hlen h0 hsp
  constructor
  · unfold step
    rw [read_u8_ok (by omega), hop]
    simp only [hr, pushK, hp.1]
  · exact hp.2

/-- A complete `PUSH v` instruction at capacity: `push` takes the `exit(1)`
branch after the operand has been read. -/
theorem step_push_full {vm : VM} {v : Int} (hv : isInt32 v)
    (hsp : (STACK_SIZE : Int) ≤ vm.sp)
    (hcode : (vm.code.drop vm.ic).take 5 = ins_push v) :
    step vm = .stop (.Exited .StackOverflow) { vm with ic := vm.ic + 1 + 4 } := by
  obtain ⟨hic, hop, henc⟩ := push_at_cursor hcode
  have hr := read_i32_encode { vm with ic := vm.ic + 1 } v hv henc
  have hp := push_full ({ vm with ic := vm.ic + 1 + 4 }) v hsp
  unfold step
  rw [read_u8_ok (by omega), hop]
  simp only [hr, pushK, hp]

/-- C1: when the two topmost stack cells are `a` (below) and `b` (top), one
iteration at an `ADD`, `SUB` or `MUL` opcode does not fault and replaces the two
cells by a single cell `r` that lies in the `int32_t` range and is congruent
modulo `2^32` to `a + b`, `a - b` or `a * b` respectively; and the program
`PUSH 2147483647, PUSH 2, MUL, PRINT` prints `-2`. -/
theorem arith_wraps_32bit (vm : VM) (rest : List Int) (a b : Int)
    (hlen : vm.stack.length = STACK_SIZE) (hsp : vm.sp ≤ STACK_SIZE)
    (hic : vm.ic < vm.code_len) (h : vm.elems = rest ++ [a, b]) :
    (∀ (op : Byte) (x : Int), vm.code.getD vm.ic 0 = op →
        (op = 2 ∧ x = a + b) ∨ (op = 3 ∧ x = a - b) ∨ (op = 4 ∧ x = a * b) →
      ∃ vm1 r, step vm = .next vm1 ∧ vm1.elems = rest ++ [r] ∧
        isInt32 r ∧ (r - x) % 4294967296 = 0 ∧
        vm1.sp = vm.sp - 1 ∧ vm1.ic = vm.ic + 1 ∧ vm1.code = vm.code ∧
        vm1.out = vm.out ∧ vm1.stack.length = STACK_SIZE) ∧
    ((run (vm_init (ins_push 2147483647 ++ ins_push 2 ++ [4, 6]))).1 = .EndOfStream ∧
      (run (vm_init (ins_push 2147483647 ++ ins_push 2 ++ [4, 6]))).2.out = "-2\n") := by
  obtain ⟨s2, s3, s4⟩ := step_arith hlen hsp hic h
  have hE : ∀ r, VM.elems { vm with
      ic := vm.ic + 1, stack := vm.stack.set (vm.sp - 1 - 1).toNat r, sp := vm.sp - 1 - 1 + 1 }
        = rest ++ [r] := fun r =>
    (pop_pop_push ({ vm with ic := vm.ic + 1 }) r hlen hsp h).2.2.2.2
  have hM : ∀ x : Int, (wrap32 x - x) % 4294967296 = 0 := fun x => by
    have := wrap32_emod x
    omega
  refine ⟨?_, by decide⟩
  intro op x hop hx
  rcases hx with ⟨rfl, rfl⟩ | ⟨rfl, rfl⟩ | ⟨rfl, rfl⟩
  · exact ⟨_, _, s2 hop, hE _, wrap32_isInt32 _, hM _, by show vm.sp - 1 - 1 + 1 = _; omega,
      rfl, rfl, rfl, by simpa using hlen⟩
  · exact ⟨_, _, s3 hop, hE _, wrap32_isInt32 _, hM _, by show vm.sp - 1 - 1 + 1 = _; omega,
      rfl, rfl, rfl, by simpa using hlen⟩
  · exact ⟨_, _, s4 hop, hE _, wrap32_isInt32 _, hM _, by show vm.sp - 1 - 1 + 1 = _; omega,
      rfl, rfl, rfl, by simpa using hlen⟩

/-- Worked instance of C1: `MUL` on the stack `[2147483647, 2]` leaves `[-2]`. -/
theorem arith_wraps_32bit_witness :
    ∃ vm1, step (vm_with [4] 0 [2147483647, 2]) = .next vm1 ∧ vm1.elems = [-2] := by
  obtain ⟨vm1, r, h1, h2, h3, h4, -⟩ :=
    (arith_wraps_32bit (vm_with [4] 0 [2147483647, 2]) [] 2147483647 2
      (vm_with_length _ _ _ (by decide)) (by decide) (by decide) (vm_with_elems _ _ _)).1 4 (2147483647 * 2) (by decide)
      (Or.inr (Or.inr ⟨rfl, rfl⟩))
  refine ⟨vm1, h1, ?_⟩
  unfold isInt32 INT32_MIN INT32_MAX at h3
  have : r = -2 := by omega
  rw [h2, this]
  rfl

/-- Where `DIV` is exact: for `int32_t` operands with a non-zero divisor, other
than `INT32_MIN / -1`, the cell left by `DIV` is the quotient truncated toward
zero. -/
theorem step_div_quotient {vm : VM} {rest : List Int} {a b : Int}
    (hlen : vm.stack.length = STACK_SIZE) (hsp : vm.sp ≤ STACK_SIZE)
    (hic : vm.ic < vm.code_len) (h : vm.elems = rest ++ [a, b])
    (hop : vm.code.getD vm.ic 0 = 5)
    (ha : isInt32 a) (hb : isInt32 b) (hb0 : b ≠ 0) (hne : ¬ (a = INT32_MIN ∧ b = -1)) :
    ∃ vm1, step vm = .next vm1 ∧ vm1.elems = rest ++ [Int.tdiv a b] := by
  have hs := step_div hlen hsp hic h hop
  rw [if_neg hb0] at hs
  refine ⟨_, hs, ?_⟩
  · rw [(pop_pop_push ({ vm with ic := vm.ic + 1 }) _ hlen hsp h).2.2.2.2,
      wrap32_of_isInt32 (tdiv_isInt32 ha hb hb0 hne)]

/-- C2 (evaluation at the failing input): `INT32_MIN` and `-1` are `int32_t`
values and the divisor is not zero, but their truncated quotient `2147483648`
is not an `int32_t` value; `DIV` on the stack `[INT32_MIN, -1]` leaves the cell
`-2147483648`, which is not that quotient, and the program
`PUSH INT32_MIN, PUSH -1, DIV, PRINT` prints `-2147483648`. -/
theorem div_int32_min_by_minus_one :
    isInt32 INT32_MIN ∧ isInt32 (-1) ∧ (-1 : Int) ≠ 0 ∧
    Int.tdiv INT32_MIN (-1) = 2147483648 ∧ ¬ isInt32 (Int.tdiv INT32_MIN (-1)) ∧
    (∃ vm1, step (vm_with [5] 0 [INT32_MIN, -1]) = .next vm1 ∧
      vm1.elems = [-2147483648] ∧ vm1.elems ≠ [Int.tdiv INT32_MIN (-1)]) ∧
    (run (vm_init (ins_push INT32_MIN ++ ins_push (-1) ++ [5, 6]))).2.out
      = "-2147483648\n" := by
  refine ⟨by decide, by decide, by decide, by decide, by decide, ?_, by decide⟩
  have hlen := vm_with_length [5] 0 [INT32_MIN, -1] (by decide)
  have hel := vm_with_elems [5] 0 [INT32_MIN, -1]
  have hs := @step_div _ [] _ _ hlen (by decide) (by decide) hel (by decide)
  rw [if_neg (by decide)] at hs
  refine ⟨_, hs, ?_⟩
  have hel1 : VM.elems { vm_with [5] 0 [INT32_MIN, -1] with ic := 0 + 1 }
      = [] ++ [INT32_MIN, -1] := hel
  have he := (pop_pop_push { vm_with [5] 0 [INT32_MIN, -1] with ic := 0 + 1 }
    (wrap32 (Int.tdiv INT32_MIN (-1))) hlen (by decide) hel1).2.2.2.2
  have e : (vm_with [5] 0 [INT32_MIN, -1]).ic = 0 := rfl
  rw [e]
  rw [he]
  decide

/-- The bytes of a program made of `PUSH` instructions only. -/
theorem pushes_length (vs : List Int) : (vs.flatMap ins_push).length = 5 * vs.length := by
  induction vs with
  | nil => rfl
  | cons v vs ih => simp only [List.flatMap_cons, List.length_append, ins_push_length, ih,
      List.length_cons]; omega

/-- The bytes found at the cursor when the code splits there. -/
theorem code_at_cursor {vm : VM} {pre x post : List Byte}
    (hc : vm.code = pre ++ (x ++ post)) (hi : vm.ic = pre.length) :
    (vm.code.drop vm.ic).take x.length = x := by
  rw [hc, hi, List.drop_left, List.take_left]

/-- Running a block of `PUSH` instructions that fits into the stack. -/
theorem reach_pushes (vs : List Int) : ∀ (vm : VM) (pre post : List Byte),
    (∀ v ∈ vs, isInt32 v) → vm.stack.length = STACK_SIZE → 0 ≤ vm.sp →
    vm.sp + vs.length ≤ STACK_SIZE →
    vm.code = pre ++ (vs.flatMap ins_push ++ post) → vm.ic = pre.length →
    ∃ vm1, Reach vm vm1 ∧ vm1.elems = vm.elems ++ vs ∧ vm1.ic = vm.ic + 5 * vs.length ∧
      vm1.code = vm.code ∧ vm1.out = vm.out ∧ vm1.sp = vm.sp + vs.length ∧
      vm1.stack.length = STACK_SIZE := by
  induction vs with
  | nil =>
    intro vm pre post _ hlen _ _ _ _
    exact ⟨vm, Reach.start, by simp, by simp, rfl, rfl, by simp, hlen⟩
  | cons v vs ih =>
    intro vm pre post hv hlen h0 hsp hc hi
    have hc1 : vm.code = pre ++ (ins_push v ++ (vs.flatMap ins_push ++ post)) := by
      rw [hc]; simp
    have hat := code_at_cursor hc1 hi
    rw [ins_push_length] at hat
    simp only [List.length_cons, Nat.cast_add, Nat.cast_one] at hsp
    obtain ⟨hs, he⟩ := step_push (hv v (List.mem_cons_self _ _)) hlen h0 (by omega) hat
    obtain ⟨vm1, r, e1, e2, e3, e4, e5, e6⟩ :=
      ih { vm with ic := vm.ic + 1 + 4, stack := vm.stack.set vm.sp.toNat v, sp := vm.sp + 1 }
        (pre ++ ins_push v) post (fun w hw => hv w (List.mem_cons_of_mem _ hw))
        (by simpa using hlen) (by show 0 ≤ vm.sp + 1; omega)
        (by show vm.sp + 1 + (vs.length : Int) ≤ _; omega)
        (by show vm.code = _; rw [hc1]; simp)
        (by show vm.ic + 1 + 4 = _; rw [hi, List.length_append, ins_push_length])
    refine ⟨vm1, Reach.head hs r, ?_, ?_, e3, e4, ?_, e6⟩
    · rw [e1, he]; simp
    · rw [e2]; show vm.ic + 1 + 4 + 5 * vs.length = _; simp only [List.length_cons]; omega
    · rw [e5]; show vm.sp + 1 + (vs.length : Int) = _; simp only [List.length_cons]; omega

/-- C3: `DIV` on a stack of at least two cells whose top cell is `0` ends the
run with the fault `DivisionByZero`: the two operands are popped, nothing is
pushed, nothing is printed, and the run stops right after the `DIV` byte
whatever follows it.  In particular, for every `int32_t` value `x`, the program
`PUSH x, PUSH 0, DIV` ends in `DivisionByZero` with no output and an empty
stack. -/
theorem div_by_zero_faults (vm : VM) (rest : List Int) (a : Int)
    (hlen : vm.stack.length = STACK_SIZE) (hsp : vm.sp ≤ STACK_SIZE)
    (hic : vm.ic < vm.code_len) (hop : vm.code.getD vm.ic 0 = 5)
    (h : vm.elems = rest ++ [a, 0]) :
    (∃ vm1, run vm = (.Returned .DivisionByZero, vm1) ∧ vm1.elems = rest ∧
      vm1.sp = vm.sp - 2 ∧ vm1.out = vm.out ∧ vm1.ic = vm.ic + 1 ∧ vm1.stack = vm.stack ∧
      vm1.code = vm.code) ∧
    (∀ x : Int, isInt32 x → ∃ vm1,
      run (vm_init (ins_push x ++ ins_push 0 ++ [5])) = (.Returned .DivisionByZero, vm1) ∧
      vm1.out = "" ∧ vm1.elems = [] ∧ vm1.ic = 11) := by
  have gen : ∀ (vm : VM) (rest : List Int) (a : Int), vm.stack.length = STACK_SIZE →
      vm.sp ≤ STACK_SIZE → vm.ic < vm.code_len → vm.code.getD vm.ic 0 = 5 →
      vm.elems = rest ++ [a, 0] →
      ∃ vm1, run vm = (.Returned .DivisionByZero, vm1) ∧ vm1.elems = rest ∧
        vm1.sp = vm.sp - 2 ∧ vm1.out = vm.out ∧ vm1.ic = vm.ic + 1 ∧ vm1.stack = vm.stack ∧
        vm1.code = vm.code := by
    intro vm rest a hlen hsp hic hop h
    have hs := step_div hlen hsp hic h hop
    rw [if_pos rfl] at hs
    refine ⟨_, run_stop hs, ?_, ?_, rfl, rfl, rfl, rfl⟩
    · exact (pop_pop_push ({ vm with ic := vm.ic + 1 }) 0 hlen hsp h).2.2.2.1
    · show vm.sp - 1 - 1 = vm.sp - 2
      omega
  refine ⟨gen vm rest a hlen hsp hic hop h, ?_⟩
  intro x hx
  have h0 : isInt32 0 := by decide
  obtain ⟨vm2, r, e1, e2, e3, e4, e5, e6⟩ :=
    reach_pushes [x, 0] (vm_init (ins_push x ++ ins_push 0 ++ [5])) [] [5]
      (by intro v hv
          simp only [List.mem_cons, List.mem_singleton, List.not_mem_nil, or_false] at hv
          rcases hv with rfl | rfl
          · exact hx
          · exact h0)
      (vm_init_length _) (Int.le_refl 0)
      (by show (0 : Int) + (([x, 0] : List Int).length : Int) ≤ (STACK_SIZE : Int)
          unfold STACK_SIZE
          simp)
      (by simp [vm_init, List.flatMap_cons]) rfl
  have hic2 : vm2.ic = 10 := by rw [e2]; rfl
  have hel : vm2.elems = [] ++ [x, 0] := by rw [e1, vm_init_elems]
  have hcode : vm2.code = ins_push x ++ ins_push 0 ++ [5] := by rw [e3]; rfl
  obtain ⟨vm3, g1, g2, g3, g4, g5, -, -⟩ := gen vm2 [] x e6
    (by rw [e5]
        show (0 : Int) + (([x, 0] : List Int).length : Int) ≤ (STACK_SIZE : Int)
        unfold STACK_SIZE
        simp)
    (by unfold VM.code_len; rw [hcode, hic2]; simp [ins_push_length])
    (by rw [hcode, hic2]; rfl) hel
  refine ⟨vm3, ?_, ?_, g2, ?_⟩
  · rw [run_reach r, g1]
  · rw [g4, e4]; rfl
  · rw [g5, hic2]

/-- Worked instance of C3: `DIV` on the stack `[7, 5, 0]`, followed by a `PRINT`
that is never reached. -/
theorem div_by_zero_faults_witness :
    ∃ vm1, run (vm_with [5, 6] 0 [7, 5, 0]) = (.Returned .DivisionByZero, vm1) ∧
      vm1.elems = [7] ∧ vm1.out = "" ∧ vm1.ic = 1 := by
  obtain ⟨vm1, h1, h2, -, h4, h5, -, -⟩ :=
    (div_by_zero_faults (vm_with [5, 6] 0 [7, 5, 0]) [7] 5
      (vm_with_length _ _ _ (by decide)) (by decide) (by decide) (by decide)
      (vm_with_elems _ _ _)).1
  exact ⟨vm1, h1, h2, h4, h5⟩

/-- `ADD`, `SUB`, `MUL` and `DIV` on fewer than two cells: one of the two `pop`s
takes the `exit(1)` branch, before any value is looked at. -/
theorem step_underflow_two {vm : VM} (hic : vm.ic < vm.code_len) (hsp : vm.sp < 2)
    (hop : vm.code.getD vm.ic 0 = 2 ∨ vm.code.getD vm.ic 0 = 3 ∨ vm.code.getD vm.ic 0 = 4 ∨
      vm.code.getD vm.ic 0 = 5) :
    step vm = .stop (.Exited .StackUnderflow)
      { vm with ic := vm.ic + 1, sp := if vm.sp ≤ 0 then vm.sp else vm.sp - 1 } := by
  by_cases h : vm.sp ≤ 0
  · have p : pop { vm with ic := vm.ic + 1 } = none := pop_empty h
    unfold step
    rw [read_u8_ok hic, if_pos h]
    rcases hop with e | e | e | e <;> rw [e] <;> simp only [p]
  · have p1 : pop { vm with ic := vm.ic + 1 } =
        some (vm.stack.getD (vm.sp - 1).toNat 0, { vm with ic := vm.ic + 1, sp := vm.sp - 1 }) :=
      pop_eq_some.2 ⟨by show 0 < vm.sp; omega, rfl, rfl⟩
    have p2 : pop { vm with ic := vm.ic + 1, sp := vm.sp - 1 } = none :=
      pop_empty (by show vm.sp - 1 ≤ 0; omega)
    unfold step
    rw [read_u8_ok hic, if_neg h]
    rcases hop with e | e | e | e <;> rw [e] <;> simp only [p1, p2]

/-- `PRINT` and `POP` on an empty stack: `pop` takes the `exit(1)` branch. -/
theorem step_underflow_one {vm : VM} (hic : vm.ic < vm.code_len) (hsp : vm.sp ≤ 0)
    (hop : vm.code.getD vm.ic 0 = 6 ∨ vm.code.getD vm.ic 0 = 8) :
    step vm = .stop (.Exited .StackUnderflow) { vm with ic := vm.ic + 1 } := by
  have p : pop { vm with ic := vm.ic + 1 } = none := pop_empty hsp
  unfold step
  rw [read_u8_ok hic]
  rcases hop with e | e <;> rw [e] <;> simp only [p]

/-- `DUP` on an empty stack: the diagnostic "Stack underflow on DUP" and `return`. -/
theorem step_underflow_dup {vm : VM} (hic : vm.ic < vm.code_len) (hsp : vm.sp ≤ 0)
    (hop : vm.code.getD vm.ic 0 = 7) :
    step vm = .stop (.Returned .StackUnderflow) { vm with ic := vm.ic + 1 } := by
  unfold step
  rw [read_u8_ok hic, hop]
  have h : ({ vm with ic := vm.ic + 1 } : VM).sp ≤ 0 := hsp
  simp only [if_pos h]

/-- `DUP` on a full stack: `push` takes the `exit(1)` branch. -/
theorem step_overflow_dup {vm : VM} (hic : vm.ic < vm.code_len)
    (hsp : (STACK_SIZE : Int) ≤ vm.sp) (hop : vm.code.getD vm.ic 0 = 7) :
    step vm = .stop (.Exited .StackOverflow) { vm with ic := vm.ic + 1 } := by
  unfold step
  rw [read_u8_ok hic, hop]
  have h : ¬ ({ vm with ic := vm.ic + 1 } : VM).sp ≤ 0 := by
    show ¬ vm.sp ≤ 0
    unfold STACK_SIZE at hsp
    omega
  simp only [if_neg h, pushK, push_full { vm with ic := vm.ic + 1 } _ hsp]

/-- `PUSH` with its operand present on a full stack: `push` takes the `exit(1)`
branch after the operand has been read, whatever the operand is. -/
theorem step_overflow_push {vm : VM} (hic : vm.ic + 5 ≤ vm.code_len)
    (hsp : (STACK_SIZE : Int) ≤ vm.sp) (hop : vm.code.getD vm.ic 0 = 1) :
    step vm = .stop (.Exited .StackOverflow) { vm with ic := vm.ic + 1 + 4 } := by
  have hr : (vm_read_i32 { vm with ic := vm.ic + 1 }).isSome = true := by
    cases hx : vm_read_i32 { vm with ic := vm.ic + 1 } with
    | none =>
      have := read_i32_eq_none.1 hx
      have e : ({ vm with ic := vm.ic + 1 } : VM).code_len = vm.code_len := rfl
      rw [e] at this
      have : vm.code_len < vm.ic + 1 + 4 := this
      omega
    | some _ => rfl
  obtain ⟨⟨v, vm1⟩, hx⟩ := Option.isSome_iff_exists.1 hr
  have hvm := (read_i32_eq_some.1 hx).2.2
  subst hvm
  unfold step
  rw [read_u8_ok (by omega), hop]
  simp only [hx, pushK, push_full { vm with ic := vm.ic + 1 + 4 } v hsp]

/-- An opcode byte outside `0x00 .. 0x08`: the `default` branch, which reports
the byte and the offset `ic - 1` it was fetched from. -/
theorem step_unknown {vm : VM} (hic : vm.ic < vm.code_len)
    (hop : 8 < (vm.code.getD vm.ic 0).val) :
    step vm = .stop (.Returned (.UnknownOpcode (vm.code.getD vm.ic 0) vm.ic))
      { vm with ic := vm.ic + 1 } := by
  unfold step
  rw [read_u8_ok hic]
  simp only
  split
  all_goals first
    | (rename_i h; omega)
    | rfl

/-- A `PUSH` opcode followed by fewer than four bytes: "Unexpected EOF on PUSH"
and `return`, with only the opcode byte consumed. -/
theorem step_truncated {vm : VM} (hic : vm.ic < vm.code_len) (hop : vm.code.getD vm.ic 0 = 1)
    (hlt : vm.code_len < vm.ic + 5) :
    step vm = .stop (.Returned .TruncatedOperand) { vm with ic := vm.ic + 1 } := by
  have hr : vm_read_i32 { vm with ic := vm.ic + 1 } = none :=
    read_i32_eq_none.2 (by show vm.code_len < vm.ic + 1 + 4; omega)
  unfold step
  rw [read_u8_ok hic, hop]
  simp only [hr]

/-- The loop condition fails: the run ends cleanly where it stands. -/
theorem step_eof {vm : VM} (hic : vm.code_len ≤ vm.ic) : step vm = .stop .EndOfStream vm := by
  unfold step
  rw [read_u8_eq_none.2 hic]

/-- C7: in every state that the loop reaches from the initial state, and in the
state in which the run ends, `0 <= sp <= 1024`.  An instruction that would take
`sp` below 0 (`ADD`, `SUB`, `MUL`, `DIV` on fewer than two cells, `PRINT`, `POP`
on none) ends the run with the fault `StackUnderflow`, and one that would take it
above 1024 (`DUP`, or `PUSH` with its operand, on 1024 cells) ends it with the
fault `StackOverflow`; in both cases `sp` stays within the bounds. -/
theorem sp_within_bounds (code : List Byte) (vm : VM) (h : Reach (vm_init code) vm) :
    (0 ≤ vm.sp ∧ vm.sp ≤ STACK_SIZE) ∧
    (0 ≤ (run (vm_init code)).2.sp ∧ (run (vm_init code)).2.sp ≤ STACK_SIZE) ∧
    (vm.ic < vm.code_len →
      ((vm.code.getD vm.ic 0 = 2 ∨ vm.code.getD vm.ic 0 = 3 ∨ vm.code.getD vm.ic 0 = 4 ∨
          vm.code.getD vm.ic 0 = 5) ∧ vm.sp < 2) ∨
        ((vm.code.getD vm.ic 0 = 6 ∨ vm.code.getD vm.ic 0 = 8) ∧ vm.sp < 1) →
      (run (vm_init code)).1 = .Exited .StackUnderflow) ∧
    (vm.sp = STACK_SIZE →
      (vm.code.getD vm.ic 0 = 1 ∧ vm.ic + 5 ≤ vm.code_len) ∨
        (vm.code.getD vm.ic 0 = 7 ∧ vm.ic < vm.code_len) →
      (run (vm_init code)).1 = .Exited .StackOverflow) := by
  have hb0 : (STACK_SIZE : Int) = 1024 := rfl
  have hinit : 0 ≤ (vm_init code).sp ∧ (vm_init code).sp ≤ STACK_SIZE := by
    constructor
    · exact Int.le_refl 0
    · show (0 : Int) ≤ STACK_SIZE
      omega
  have hb := (reach_inv h).2.2.2.2 hinit.1 hinit.2
  refine ⟨hb, ?_, ?_, ?_⟩
  · obtain ⟨vmf, r, hs⟩ := run_final (vm_init code)
    have hbf := (reach_inv r).2.2.2.2 hinit.1 hinit.2
    exact (step_stop_inv hs).2.2.2.2.2 hbf.1 hbf.2
  · intro hic hcase
    rw [run_reach h]
    rcases hcase with ⟨hop, hsp⟩ | ⟨hop, hsp⟩
    · rw [run_stop (step_underflow_two hic hsp hop)]
    · rw [run_stop (step_underflow_one hic (by omega) hop)]
  · intro hsp hcase
    rw [run_reach h]
    rcases hcase with ⟨hop, hic⟩ | ⟨hop, hic⟩
    · rw [run_stop (step_overflow_push hic (by omega) hop)]
    · rw [run_stop (step_overflow_dup hic (by omega) hop)]

/-- Worked instance of C7: after `PUSH 7` the stack holds one cell, and the `ADD`
that follows underflows. -/
theorem sp_within_bounds_witness :
    (run (vm_init (ins_push 7 ++ [2]))).1 = .Exited .StackUnderflow :=
  (sp_within_bounds (ins_push 7 ++ [2]) _
    (Reach.next Reach.start
      (@step_push (vm_init (ins_push 7 ++ [2])) 7 (by decide) (vm_init_length _)
        (Int.le_refl 0) (by decide) (by decide)).1)).2.2.1
    (by decide) (Or.inl ⟨by decide, by decide⟩)

/-- C8: for every sequence `vs` of 1025 `int32_t` values, the program made of the
1025 instructions `PUSH v` reaches, after the first 1024 of them, a state whose
stack holds exactly the first 1024 values in push order, and then ends with the
fault `StackOverflow` on the 1025th `PUSH` (after its operand has been read),
with the stack and the output unchanged.  `DUP` on a stack of 1024 cells ends
the run with the same fault. -/
theorem push_1025_overflows (vs : List Int) (hn : vs.length = 1025)
    (hv : ∀ v ∈ vs, isInt32 v) :
    (∃ vm, Reach (vm_init (vs.flatMap ins_push)) vm ∧ vm.elems = vs.take 1024 ∧
      vm.sp = 1024 ∧ vm.ic = 5 * 1024 ∧ vm.out = "" ∧
      ∃ vmf, run (vm_init (vs.flatMap ins_push)) = (.Exited .StackOverflow, vmf) ∧
        vmf.elems = vs.take 1024 ∧ vmf.sp = 1024 ∧ vmf.ic = 5 * 1025 ∧ vmf.out = "") ∧
    (∀ vm : VM, vm.sp = 1024 → vm.ic < vm.code_len → vm.code.getD vm.ic 0 = 7 →
      run vm = (.Exited .StackOverflow, { vm with ic := vm.ic + 1 })) := by
  have hb0 : (STACK_SIZE : Int) = 1024 := rfl
  constructor
  · obtain ⟨w, hw⟩ : ∃ w, vs = vs.take 1024 ++ [w] := by
      have hd : (vs.drop 1024).length = 1 := by rw [List.length_drop, hn]
      obtain ⟨w, hw⟩ := List.length_eq_one.1 hd
      exact ⟨w, by rw [← hw, List.take_append_drop]⟩
    have htl : (vs.take 1024).length = 1024 := by rw [List.length_take, hn]; rfl
    have hcode : (vm_init (vs.flatMap ins_push)).code
        = [] ++ ((vs.take 1024).flatMap ins_push ++ ins_push w) := by
      show vs.flatMap ins_push = _
      conv => lhs; rw [hw]
      simp [List.flatMap_append]
    obtain ⟨vm, r, e1, e2, e3, e4, e5, e6⟩ :=
      reach_pushes (vs.take 1024) (vm_init (vs.flatMap ins_push)) [] (ins_push w)
        (fun v h => hv v (List.mem_of_mem_take h)) (vm_init_length _) (Int.le_refl 0)
        (by show (0 : Int) + ((vs.take 1024).length : Int) ≤ (STACK_SIZE : Int)
            rw [htl, hb0]
            decide)
        hcode rfl
    have hsp : vm.sp = 1024 := by
      rw [e5, htl]
      rfl
    have hic : vm.ic = 5 * 1024 := by
      rw [e2, htl]
      rfl
    have hel : vm.elems = vs.take 1024 := by rw [e1, vm_init_elems]; rfl
    have hout : vm.out = "" := by rw [e4]; rfl
    have hat : (vm.code.drop vm.ic).take (ins_push w).length = ins_push w := by
      apply @code_at_cursor vm ((vs.take 1024).flatMap ins_push) (ins_push w) []
      · rw [e3, hcode]; simp
      · rw [hic, pushes_length, htl]
    rw [ins_push_length] at hat
    have hs := step_push_full
      (hv w (by rw [hw]; exact List.mem_append_right _ (List.mem_singleton_self w)))
      (by rw [hsp, hb0]) hat
    refine ⟨vm, r, hel, hsp, hic, hout, { vm with ic := vm.ic + 1 + 4 }, ?_, hel, hsp, ?_, hout⟩
    · rw [run_reach r, run_stop hs]
    · show vm.ic + 1 + 4 = 5 * 1025
      omega
  · intro vm hsp hic hop
    exact run_stop (step_overflow_dup hic (by rw [hsp, hb0]) hop)

/-- Worked instance of C8: 1025 times `PUSH 7`. -/
theorem push_1025_overflows_witness :
    (run (vm_init ((List.replicate 1025 7).flatMap ins_push))).1 = .Exited .StackOverflow := by
  obtain ⟨-, -, -, -, -, -, vmf, h, -⟩ :=
    (push_1025_overflows (List.replicate 1025 7) (List.length_replicate 1025 7)
      (fun v hv => by rw [List.eq_of_mem_replicate hv]; decide)).1
  rw [h]

/-- C9: an instruction executed with too few operands ends the run with the
fault `StackUnderflow`, whatever the stack cells hold: `PRINT`, `DUP` and `POP`
on an empty stack, `ADD`, `SUB`, `MUL` and `DIV` on fewer than two cells (so
never `DivisionByZero`).  The faulting instruction prints nothing and is the
last one executed.  In particular the program `[POP]` ends in `StackUnderflow`
with no output. -/
theorem stack_underflow_faults (vm : VM) (hic : vm.ic < vm.code_len)
    (hcase :
      ((vm.code.getD vm.ic 0 = 6 ∨ vm.code.getD vm.ic 0 = 7 ∨ vm.code.getD vm.ic 0 = 8) ∧
        vm.sp ≤ 0) ∨
      ((vm.code.getD vm.ic 0 = 2 ∨ vm.code.getD vm.ic 0 = 3 ∨ vm.code.getD vm.ic 0 = 4 ∨
          vm.code.getD vm.ic 0 = 5) ∧ vm.sp < 2)) :
    ((run vm).1.fault = some .StackUnderflow ∧ (run vm).2.out = vm.out ∧
      (run vm).2.ic = vm.ic + 1) ∧
    ((run (vm_init [8])).1.fault = some .StackUnderflow ∧ (run (vm_init [8])).2.out = "") := by
  constructor
  · rcases hcase with ⟨hop, hsp⟩ | ⟨hop, hsp⟩
    · rcases hop with e | e | e
      · rw [run_stop (step_underflow_one hic hsp (Or.inl e))]
        exact ⟨rfl, rfl, rfl⟩
      · rw [run_stop (step_underflow_dup hic hsp e)]
        exact ⟨rfl, rfl, rfl⟩
      · rw [run_stop (step_underflow_one hic hsp (Or.inr e))]
        exact ⟨rfl, rfl, rfl⟩
    · rw [run_stop (step_underflow_two hic hsp hop)]
      exact ⟨rfl, rfl, rfl⟩
  · have h0 : (vm_init [8]).sp ≤ 0 := Int.le_refl 0
    have hi : (vm_init [8]).ic < (vm_init [8]).code_len := by decide
    rw [run_stop (step_underflow_one hi h0 (Or.inr rfl))]
    exact ⟨rfl, rfl⟩

/-- Worked instance of C9: `DIV` on the one-cell stack `[0]` is a stack
underflow, not a division by zero. -/
theorem stack_underflow_faults_witness :
    (run (vm_with [5] 0 [0])).1.fault = some .StackUnderflow ∧
    (run (vm_with [5] 0 [0])).1.fault ≠ some .DivisionByZero := by
  have h := (stack_underflow_faults (vm_with [5] 0 [0]) (by decide)
    (Or.inr ⟨by decide, by decide⟩)).1.1
  refine ⟨h, ?_⟩
  rw [h]
  decide

/-- C10: when the loop reaches, at offset `k`, an opcode byte that is not one of
`0x00 .. 0x08`, the run ends with the fault `UnknownOpcode`; the offset reported
with the fault is `k` (not `k + 1`), no further instruction is executed, and
the stack, the stack pointer and the output are what they were before the byte
was fetched. -/
theorem unknown_opcode_faults (code : List Byte) (vm : VM) (k : Nat)
    (h : Reach (vm_init code) vm) (hk : vm.ic = k) (hic : k < code.length)
    (hop : 8 < (code.getD k 0).val) :
    run (vm_init code) =
      (.Returned (.UnknownOpcode (code.getD k 0) k), { vm with ic := k + 1 }) ∧
    (run (vm_init code)).2.stack = vm.stack ∧ (run (vm_init code)).2.sp = vm.sp ∧
    (run (vm_init code)).2.out = vm.out ∧ (run (vm_init code)).2.elems = vm.elems := by
  have hc : vm.code = code := (reach_inv h).1
  subst hk
  have hs := @step_unknown vm (by unfold VM.code_len; rw [hc]; exact hic)
    (by rw [hc]; exact hop)
  have e1 : code.getD vm.ic 0 = vm.code.getD vm.ic 0 := by rw [hc]
  rw [run_reach h, run_stop hs, e1]
  exact ⟨rfl, rfl, rfl, rfl, rfl⟩

/-- Worked instance of C10: the byte `0x2a` at offset 5, after `PUSH 3` and
before a `PRINT` that is never reached. -/
theorem unknown_opcode_faults_witness :
    ∃ vm1, run (vm_init (ins_push 3 ++ [0x2a, 6])) =
        (.Returned (.UnknownOpcode 0x2a 5), vm1) ∧ vm1.elems = [3] ∧ vm1.out = "" ∧
        vm1.ic = 6 := by
  have hp := @step_push (vm_init (ins_push 3 ++ [0x2a, 6])) 3 (by decide) (vm_init_length _)
    (Int.le_refl 0) (by decide) (by decide)
  have h := unknown_opcode_faults (ins_push 3 ++ [0x2a, 6]) _ 5
    (Reach.next Reach.start hp.1) rfl (by decide) (by decide)
  refine ⟨_, h.1, ?_, rfl, rfl⟩
  have he := hp.2
  rw [vm_init_elems] at he
  exact he

/-- C11: when the loop reaches a `PUSH` opcode at offset `k` that is followed by
fewer than four bytes (0, 1, 2 or 3), the run ends with the fault
`TruncatedOperand`: nothing is pushed, nothing is printed and no further
instruction runs.  This outcome differs from the clean end `EndOfStream`, which
is how the run ends when the loop reaches the end of the code at an opcode
fetch. -/
theorem truncated_operand_faults (code : List Byte) (vm : VM)
    (h : Reach (vm_init code) vm) :
    (vm.ic < code.length → code.getD vm.ic 0 = 1 → code.length < vm.ic + 5 →
      run (vm_init code) = (.Returned .TruncatedOperand, { vm with ic := vm.ic + 1 }) ∧
      (run (vm_init code)).1.fault = some .TruncatedOperand ∧
      (run (vm_init code)).2.elems = vm.elems ∧ (run (vm_init code)).2.out = vm.out) ∧
    (vm.ic = code.length →
      run (vm_init code) = (.EndOfStream, vm) ∧ (run (vm_init code)).1.fault = none) ∧
    Outcome.Returned .TruncatedOperand ≠ Outcome.EndOfStream := by
  have hc : vm.code = code := (reach_inv h).1
  refine ⟨?_, ?_, by decide⟩
  · intro hic hop hlt
    have hs := @step_truncated vm (by unfold VM.code_len; rw [hc]; exact hic)
      (by rw [hc]; exact hop) (by unfold VM.code_len; rw [hc]; exact hlt)
    rw [run_reach h, run_stop hs]
    exact ⟨rfl, rfl, rfl, rfl⟩
  · intro hic
    have hs := @step_eof vm (by unfold VM.code_len; rw [hc, hic])
    rw [run_reach h, run_stop hs]
    exact ⟨rfl, rfl⟩

/-- Worked instance of C11: `PUSH 3` followed by a `PUSH` opcode with only two
operand bytes. -/
theorem truncated_operand_faults_witness :
    ∃ vm1, run (vm_init (ins_push 3 ++ [0x01, 0x05, 0x00])) =
        (.Returned .TruncatedOperand, vm1) ∧ vm1.elems = [3] ∧ vm1.out = "" ∧ vm1.ic = 6 := by
  have hp := @step_push (vm_init (ins_push 3 ++ [0x01, 0x05, 0x00])) 3 (by decide)
    (vm_init_length _) (Int.le_refl 0) (by decide) (by decide)
  have h := (truncated_operand_faults (ins_push 3 ++ [0x01, 0x05, 0x00]) _
    (Reach.next Reach.start hp.1)).1 (by decide) (by decide) (by decide)
  refine ⟨_, h.1, ?_, rfl, rfl⟩
  have he := hp.2
  rw [vm_init_elems] at he
  exact he

/-- C12 (evaluation at the failing inputs): the runs of `PUSH 5, PUSH 0, DIV`, of
the unknown opcode `0x2a`, of a `PUSH` opcode with two operand bytes and of `DUP`
on the empty stack all end in a fault (`DivisionByZero`, `UnknownOpcode`,
`TruncatedOperand`, `StackUnderflow`) and the process exits with status 0: after
every diagnostic that is followed by `return`, `main` executes `return 0`.  Only
the faults raised inside `push` and `pop`, which call `exit(1)`, give a non-zero
status, as `POP` on the empty stack shows. -/
theorem fault_exit_code_zero :
    ((run (vm_init (ins_push 5 ++ ins_push 0 ++ [5]))).1.fault = some .DivisionByZero ∧
      (main (some (ins_push 5 ++ ins_push 0 ++ [5]))).1 = 0) ∧
    ((run (vm_init [0x2a])).1.fault = some (.UnknownOpcode 0x2a 0) ∧
      (main (some [0x2a])).1 = 0) ∧
    ((run (vm_init [0x01, 0x05, 0x00])).1.fault = some .TruncatedOperand ∧
      (main (some [0x01, 0x05, 0x00])).1 = 0) ∧
    ((run (vm_init [0x07])).1.fault = some .StackUnderflow ∧ (main (some [0x07])).1 = 0) ∧
    ((run (vm_init [0x08])).1.fault = some .StackUnderflow ∧ (main (some [0x08])).1 = 1) ∧
    (∀ f : Fault, exit_code (.Returned f) = 0 ∧ exit_code (.Exited f) = 1) ∧
    (exit_code .Halted = 0 ∧ exit_code .EndOfStream = 0) := by
  refine ⟨⟨by decide, by decide⟩, ⟨by decide, by decide⟩, ⟨by decide, by decide⟩,
    ⟨by decide, by decide⟩, ⟨by decide, by decide⟩, fun f => ⟨rfl, rfl⟩, rfl, rfl⟩

/-- C13: in every state that the loop reaches from the initial state the cursor
satisfies `ic <= code_len` (and `0 <= ic`, `ic` being unsigned); it never
decreases: an iteration that goes round again moves it strictly forward, by 1 or
by 1 + 4 for a `PUSH`, an iteration that ends the run does not move it back, and
it stays within the code in both cases; a successful `vm_read_u8` advances it by
exactly 1 and a successful `vm_read_i32` by exactly 4. -/
theorem cursor_monotone_bounded (code : List Byte) (vm : VM)
    (h : Reach (vm_init code) vm) :
    (0 ≤ vm.ic ∧ vm.ic ≤ code.length) ∧
    (∀ vm1, step vm = .next vm1 →
      vm.ic < vm1.ic ∧ vm1.ic ≤ code.length ∧ (vm1.ic = vm.ic + 1 ∨ vm1.ic = vm.ic + 1 + 4)) ∧
    (∀ o vm1, step vm = .stop o vm1 → vm.ic ≤ vm1.ic ∧ vm1.ic ≤ code.length) ∧
    (∀ vm2, Reach vm vm2 → vm.ic ≤ vm2.ic) ∧
    (vm.ic ≤ (run (vm_init code)).2.ic ∧ (run (vm_init code)).2.ic ≤ code.length) ∧
    (∀ (m m1 : VM) (b : Byte), vm_read_u8 m = some (b, m1) → m1.ic = m.ic + 1) ∧
    (∀ (m m1 : VM) (v : Int), vm_read_i32 m = some (v, m1) → m1.ic = m.ic + 4) := by
  obtain ⟨hc, -, -, hle, -⟩ := reach_inv h
  have hlen : vm.code_len = code.length := by unfold VM.code_len; rw [hc]; rfl
  have hb : vm.ic ≤ code.length := by
    rw [← hlen]
    exact hle (Nat.zero_le _)
  have hstop : ∀ o vm1, step vm = .stop o vm1 → vm.ic ≤ vm1.ic ∧ vm1.ic ≤ code.length := by
    intro o vm1 hs
    refine ⟨(step_stop_inv hs).2.1, ?_⟩
    rw [← hlen]
    exact step_stop_ic hs (by rw [hlen]; exact hb)
  refine ⟨⟨Nat.zero_le _, hb⟩, ?_, hstop, ?_, ?_, ?_, ?_⟩
  · intro vm1 hs
    obtain ⟨-, h2, h3, -⟩ := step_next_inv hs
    refine ⟨h2, by rw [← hlen]; exact h3, ?_⟩
    rcases step_next_ic hs with ⟨-, e⟩ | ⟨-, e⟩
    · exact Or.inl e
    · exact Or.inr e
  · intro vm2 r
    exact (reach_inv r).2.1
  · obtain ⟨vmf, r, hs⟩ := run_final vm
    rw [run_reach h]
    obtain ⟨hcf, hif, -, hlef, -⟩ := reach_inv r
    have hlenf : vmf.code_len = code.length := by unfold VM.code_len; rw [hcf, hc]; rfl
    have h1 := (step_stop_inv hs).2.1
    have h2 := step_stop_ic hs (hlef (by rw [hlen]; exact hb))
    rw [hlenf] at h2
    exact ⟨by omega, h2⟩
  · intro m m1 b hr
    rw [(read_u8_eq_some.1 hr).2.2]
  · intro m m1 v hr
    rw [(read_i32_eq_some.1 hr).2.2]

/-- Worked instance of C13: after `PUSH 3` the cursor stands at 5 in a code of 7
bytes, and the `ADD` that follows stops the run at 6. -/
theorem cursor_monotone_bounded_witness :
    5 ≤ (run (vm_init (ins_push 3 ++ [2, 6]))).2.ic ∧
    (run (vm_init (ins_push 3 ++ [2, 6]))).2.ic ≤ 7 :=
  (cursor_monotone_bounded (ins_push 3 ++ [2, 6]) _
    (Reach.next Reach.start
      (@step_push (vm_init (ins_push 3 ++ [2, 6])) 3 (by decide) (vm_init_length _)
        (Int.le_refl 0) (by decide) (by decide)).1)).2.2.2.2.1

/-- C14: the built-in example program is the 19 bytes encoding
`PUSH 10, PUSH 20, ADD, PUSH 2, MUL, PRINT, HALT`; its run from the initial state
ends in `Halted` without a fault, with exactly the output `"60\n"` and an empty
stack, and `main` without an argument exits with status 0 after printing
`"60\n"`. -/
theorem example_prog_prints_60 :
    example_prog.length = 19 ∧
    example_prog = ins_push 10 ++ ins_push 20 ++ [2] ++ ins_push 2 ++ [4] ++ [6] ++ [0] ∧
    (run (vm_init example_prog)).1 = .Halted ∧
    (run (vm_init example_prog)).1.fault = none ∧
    (run (vm_init example_prog)).2.out = "60\n" ∧
    (run (vm_init example_prog)).2.sp = 0 ∧
    (run (vm_init example_prog)).2.elems = [] ∧
    exit_code (run (vm_init example_prog)).1 = 0 ∧
    main none = (0, "60\n") := by
  refine ⟨by decide, by decide, by decide, by decide, by decide, by decide, by decide,
    by decide, by decide⟩

/-- Effect of one loop iteration at a `DUP` (7) opcode on a non-empty stack below
capacity. -/
theorem step_dup {vm : VM} {rest : List Int} {v : Int}
    (hlen : vm.stack.length = STACK_SIZE) (hsp : vm.sp < STACK_SIZE)
    (hic : vm.ic < vm.code_len) (hop : vm.code.getD vm.ic 0 = 7)
    (h : vm.elems = rest ++ [v]) :
    step vm = .next { vm with
        ic := vm.ic + 1, stack := vm.stack.set vm.sp.toNat v, sp := vm.sp + 1 } ∧
    VM.elems { vm with
        ic := vm.ic + 1, stack := vm.stack.set vm.sp.toNat v, sp := vm.sp + 1 }
      = rest ++ [v, v] := by
  obtain ⟨h1, h2, -⟩ := elems_one hlen (Int.le_of_lt hsp) h
  have e : (vm.sp - 1).toNat = rest.length := by omega
  have hp := push_ok { vm with ic := vm.ic + 1 } v hlen (by show 0 ≤ vm.sp; omega) hsp
  constructor
  · unfold step
    rw [read_u8_ok hic, hop]
    have hn : ¬ ({ vm with ic := vm.ic + 1 } : VM).sp ≤ 0 := by show ¬ vm.sp ≤ 0; omega
    have hg : ({ vm with ic := vm.ic + 1 } : VM).stack.getD
        (({ vm with ic := vm.ic + 1 } : VM).sp - 1).toNat 0 = v := by
      show vm.stack.getD (vm.sp - 1).toNat 0 = v
      rw [e, h2]
    simp only [if_neg hn, hg, pushK, hp.1]
  · have := hp.2
    rw [this]
    show vm.elems ++ [v] = _
    rw [h]
    simp

/-- C16: `DUP` on a non-empty stack of fewer than 1024 cells whose top cell is
`v` grows the stack by exactly one cell, equal to `v`, and changes no other
cell; on the one-cell stack `[v]` it yields `[v, v]`, and an `ADD` executed next
yields the one-cell stack holding `v + v` wrapped to 32 bits. -/
theorem dup_copies_top (vm : VM) (rest : List Int) (v : Int)
    (hlen : vm.stack.length = STACK_SIZE) (hsp : vm.sp < STACK_SIZE)
    (hic : vm.ic < vm.code_len) (hop : vm.code.getD vm.ic 0 = 7)
    (h : vm.elems = rest ++ [v]) :
    ∃ vm1, step vm = .next vm1 ∧ vm1.elems = vm.elems ++ [v] ∧
      vm1.elems = rest ++ [v, v] ∧ vm1.sp = vm.sp + 1 ∧ vm1.ic = vm.ic + 1 ∧
      vm1.out = vm.out ∧ vm1.code = vm.code ∧
      (rest = [] → vm.ic + 1 < vm.code_len → vm.code.getD (vm.ic + 1) 0 = 2 →
        vm1.elems = [v, v] ∧
        ∃ vm2 r, step vm1 = .next vm2 ∧ vm2.elems = [r] ∧ isInt32 r ∧
          (r - (v + v)) % 4294967296 = 0) := by
  obtain ⟨hs, he⟩ := step_dup hlen hsp hic hop h
  refine ⟨_, hs, ?_, he, rfl, rfl, rfl, rfl, ?_⟩
  · rw [he, h]; simp
  · intro hr hic2 hop2
    subst hr
    have he2 : VM.elems { vm with
        ic := vm.ic + 1, stack := vm.stack.set vm.sp.toNat v, sp := vm.sp + 1 }
        = [] ++ [v, v] := he
    have hlen2 : (vm.stack.set vm.sp.toNat v).length = STACK_SIZE := by
      rw [List.length_set]; exact hlen
    have hsp2 : vm.sp + 1 ≤ (STACK_SIZE : Int) := by omega
    have hs2 := (@step_arith { vm with
        ic := vm.ic + 1, stack := vm.stack.set vm.sp.toNat v, sp := vm.sp + 1 } [] v v
        hlen2 hsp2 hic2 he2).1 hop2
    have he3 := (pop_pop_push { vm with
        ic := vm.ic + 1 + 1, stack := vm.stack.set vm.sp.toNat v, sp := vm.sp + 1 }
        (wrap32 (v + v)) hlen2 hsp2 he2).2.2.2.2
    refine ⟨he, _, wrap32 (v + v), hs2, he3, wrap32_isInt32 _, ?_⟩
    have := wrap32_emod (v + v)
    omega

/-- Worked instance of C16: `DUP` then `ADD` on the stack `[2147483647]`. -/
theorem dup_copies_top_witness :
    ∃ vm1, step (vm_with [7, 2] 0 [2147483647]) = .next vm1 ∧
      vm1.elems = [2147483647, 2147483647] ∧
      ∃ vm2, step vm1 = .next vm2 ∧ vm2.elems = [-2] := by
  obtain ⟨vm1, h1, -, -, -, -, -, -, h8⟩ :=
    dup_copies_top (vm_with [7, 2] 0 [2147483647]) [] 2147483647
      (vm_with_length _ _ _ (by decide)) (by decide) (by decide) (by decide)
      (vm_with_elems _ _ _)
  obtain ⟨e1, vm2, r, h2, e2, hr, hm⟩ := h8 rfl (by decide) (by decide)
  refine ⟨vm1, h1, e1, vm2, h2, ?_⟩
  unfold isInt32 INT32_MIN INT32_MAX at hr
  have : r = -2 := by omega
  rw [e2, this]

/-- Effect of one loop iteration at a `PRINT` (6) opcode on a non-empty stack. -/
theorem step_print {vm : VM} (hic : vm.ic < vm.code_len) (hop : vm.code.getD vm.ic 0 = 6)
    (hsp : 0 < vm.sp) :
    step vm = .next { vm with
      ic := vm.ic + 1, sp := vm.sp - 1,
      out := vm.out ++ toString (vm.stack.getD (vm.sp - 1).toNat 0) ++ "\n" } := by
  have p : pop { vm with ic := vm.ic + 1 } =
      some (vm.stack.getD (vm.sp - 1).toNat 0, { vm with ic := vm.ic + 1, sp := vm.sp - 1 }) :=
    pop_eq_some.2 ⟨hsp, rfl, rfl⟩
  unfold step
  rw [read_u8_ok hic, hop]
  simp only [p]

/-- What an iteration that goes round again leaves alone: the code, and the
stack cells below the operands of the instruction (below the top two cells for
the four arithmetic opcodes, every cell for `PRINT` and `POP`, the cells below
the stack pointer for `PUSH` and `DUP`). -/
theorem step_next_frame {vm vm1 : VM} (h : step vm = .next vm1) :
    vm1.code = vm.code ∧
    ((((vm.code.getD vm.ic 0).val = 2 ∨ (vm.code.getD vm.ic 0).val = 3 ∨
        (vm.code.getD vm.ic 0).val = 4 ∨ (vm.code.getD vm.ic 0).val = 5) ∧
        2 ≤ vm.sp ∧ vm1.sp = vm.sp - 1 ∧
        ∀ i : Nat, (i : Int) < vm.sp - 2 → vm1.stack[i]? = vm.stack[i]?) ∨
     (((vm.code.getD vm.ic 0).val = 6 ∨ (vm.code.getD vm.ic 0).val = 8) ∧
        1 ≤ vm.sp ∧ vm1.sp = vm.sp - 1 ∧ vm1.stack = vm.stack) ∨
     (((vm.code.getD vm.ic 0).val = 1 ∨ (vm.code.getD vm.ic 0).val = 7) ∧
        vm1.sp = vm.sp + 1 ∧
        ∀ i : Nat, (i : Int) < vm.sp → vm1.stack[i]? = vm.stack[i]?)) := by
  unfold step at h
  repeat' split at h
  all_goals simp only [read_u8_eq_some, read_i32_eq_some, pop_eq_some, pushK_eq_next,
    Step.next.injEq, reduceCtorEq, VM.code_len, STACK_SIZE] at *
  all_goals try subst h
  all_goals simp_all only [List.length_set, true_and, Nat.cast_ofNat]
  all_goals simp +decide
  all_goals first
    | omega
    | (intro i hi; rw [List.getElem?_set_ne (by omega)])
    | (refine ⟨by omega, fun i hi => ?_⟩; rw [List.getElem?_set_ne (by omega)])

theorem take_congr_getElem? {s1 s : List Int} {k : Nat}
    (h : ∀ i : Nat, i < k → s1[i]? = s[i]?) : s1.take k = s.take k := by
  apply List.ext_getElem?
  intro i
  simp only [List.getElem?_take]
  split
  · exact h i (by assumption)
  · rfl

/-- The live cells below position `k` when the cells of the array below `k` agree. -/
theorem elems_take_congr {vm1 vm : VM} {k : Nat} (h1 : (k : Int) ≤ vm1.sp) (h : (k : Int) ≤ vm.sp)
    (hc : ∀ i : Nat, i < k → vm1.stack[i]? = vm.stack[i]?) :
    vm1.elems.take k = vm.elems.take k := by
  unfold VM.elems
  rw [List.take_take, List.take_take, Nat.min_eq_left (by omega), Nat.min_eq_left (by omega)]
  exact take_congr_getElem? hc

/-- C20: every instruction touches only the top of the stack.  For every
iteration that goes round again from a reached state, the stack cells below the
operands the instruction consumes are the same, position by position, before
and after: below the top two cells for `ADD`, `SUB`, `MUL` and `DIV`, below the
top cell for `PRINT` and `POP` (which leave the whole array as it is), and the
whole stack for `PUSH` and `DUP`.  The program bytes are never modified: the
code after the iteration, and in the final state of `run`, is the initial code. -/
theorem step_touches_only_top (vm0 vm vm1 : VM) (hr : Reach vm0 vm)
    (h : step vm = .next vm1) :
    vm1.code = vm.code ∧ vm1.code = vm0.code ∧ (run vm0).2.code = vm0.code ∧
    ((((vm.code.getD vm.ic 0).val = 2 ∨ (vm.code.getD vm.ic 0).val = 3 ∨
        (vm.code.getD vm.ic 0).val = 4 ∨ (vm.code.getD vm.ic 0).val = 5) ∧
        2 ≤ vm.sp ∧ vm1.sp = vm.sp - 1 ∧
        (∀ i : Nat, (i : Int) < vm.sp - 2 → vm1.stack[i]? = vm.stack[i]?) ∧
        vm1.elems.take (vm.sp - 2).toNat = vm.elems.take (vm.sp - 2).toNat) ∨
     (((vm.code.getD vm.ic 0).val = 6 ∨ (vm.code.getD vm.ic 0).val = 8) ∧
        1 ≤ vm.sp ∧ vm1.sp = vm.sp - 1 ∧ vm1.stack = vm.stack ∧
        vm1.elems = vm.elems.take (vm.sp - 1).toNat) ∨
     (((vm.code.getD vm.ic 0).val = 1 ∨ (vm.code.getD vm.ic 0).val = 7) ∧
        vm1.sp = vm.sp + 1 ∧
        (∀ i : Nat, (i : Int) < vm.sp → vm1.stack[i]? = vm.stack[i]?) ∧
        vm1.elems.take vm.sp.toNat = vm.elems)) := by
  obtain ⟨hc, hf⟩ := step_next_frame h
  have hc0 : vm.code = vm0.code := (reach_inv hr).1
  refine ⟨hc, hc.trans hc0, ?_, ?_⟩
  · obtain ⟨vmf, hrf, hsf⟩ := run_final vm0
    rw [(step_stop_inv hsf).1]
    exact (reach_inv hrf).1
  · rcases hf with ⟨hop, h2, hsp, hcell⟩ | ⟨hop, h1, hsp, hst⟩ | ⟨hop, hsp, hcell⟩
    · refine Or.inl ⟨hop, h2, hsp, hcell, ?_⟩
      exact elems_take_congr (by omega) (by omega) (fun i hi => hcell i (by omega))
    · refine Or.inr (Or.inl ⟨hop, h1, hsp, hst, ?_⟩)
      unfold VM.elems
      rw [hst, hsp, List.take_take, Nat.min_eq_left (by omega)]
    · refine Or.inr (Or.inr ⟨hop, hsp, hcell, ?_⟩)
      by_cases hneg : vm.sp < 0
      · have z : vm.sp.toNat = 0 := by omega
        unfold VM.elems
        rw [z, List.take_zero, List.take_zero]
      · have e := @elems_take_congr vm1 vm vm.sp.toNat (by omega) (by omega)
          (fun i hi => hcell i (by omega))
        rw [e]
        unfold VM.elems
        rw [List.take_take, Nat.min_self]

/-- Worked instance of C20: `PRINT` on the stack `[5, 7]` leaves the cell below
the top, and the code, as they were. -/
theorem step_touches_only_top_witness :
    ∃ vm1, step (vm_with [6] 0 [5, 7]) = .next vm1 ∧ vm1.code = [6] ∧
      (run (vm_with [6] 0 [5, 7])).2.code = [6] :=
  ⟨_, @step_print (vm_with [6] 0 [5, 7]) (by decide) (by decide) (by decide),
    (step_touches_only_top (vm_with [6] 0 [5, 7]) _ _ Reach.start
      (@step_print (vm_with [6] 0 [5, 7]) (by decide) (by decide) (by decide))).1,
    (step_touches_only_top (vm_with [6] 0 [5, 7]) _ _ Reach.start
      (@step_print (vm_with [6] 0 [5, 7]) (by decide) (by decide) (by decide))).2.2.1⟩

theorem reachIn_reach {vm0 vm : VM} {n : Nat} (h : ReachIn vm0 n vm) : Reach vm0 vm := by
  induction h with
  | start => exact Reach.start
  | next _ hs ih => exact Reach.next ih hs

theorem reach_reachIn {vm0 vm : VM} (h : Reach vm0 vm) : ∃ n, ReachIn vm0 n vm := by
  induction h with
  | start => exact ⟨0, ReachIn.start⟩
  | next _ hs ih =>
    obtain ⟨n, hn⟩ := ih
    exact ⟨n + 1, ReachIn.next hn hs⟩

/-- Each iteration consumes at least one byte: after `n` iterations the cursor
has advanced by at least `n`. -/
theorem reachIn_ic {vm0 vm : VM} {n : Nat} (h : ReachIn vm0 n vm) : vm0.ic + n ≤ vm.ic := by
  induction h with
  | start => exact Nat.le_refl _
  | next _ hs ih =>
    have := (step_next_inv hs).2.1
    omega

/-- An iteration that ends the run with anything but the end of the stream
fetched an opcode, so the cursor was inside the code. -/
theorem step_stop_fetch {vm vm1 : VM} {o : Outcome} (h : step vm = .stop o vm1)
    (ho : o ≠ .EndOfStream) : vm.ic < vm.code_len := by
  by_contra hge
  rw [step_eof (Nat.le_of_not_lt hge)] at h
  simp only [Step.stop.injEq] at h
  exact ho h.1.symm

/-- C19: `run` terminates on every program.  For every byte sequence `code`,
the run from the initial state ends after some number `n` of iterations that go
round again in an iteration that leaves the loop with exactly one of `Halted`,
the clean end of the stream, or a fault, never by exhausting the bound; `n` is
at most the cursor, which is at most `code_len`, and counting the instruction
that ends the run (when the run does not end at the end of the stream) still
gives at most `code_len` instructions, so `code_len` iterations are always
enough.  Every iteration that does not end the run strictly increases the
cursor, which stays bounded by `code_len`. -/
theorem run_terminates (code : List Byte) :
    (∃ n vmf, ReachIn (vm_init code) n vmf ∧
      step vmf = .stop (run (vm_init code)).1 (run (vm_init code)).2 ∧
      n ≤ vmf.ic ∧ vmf.ic ≤ code.length ∧ n ≤ code.length ∧
      ((run (vm_init code)).1 ≠ .EndOfStream → n + 1 ≤ code.length)) ∧
    (run (vm_init code)).1 ≠ .OutOfFuel ∧
    (((run (vm_init code)).1 = .Halted ∧ (run (vm_init code)).1.fault = none) ∨
      ((run (vm_init code)).1 = .EndOfStream ∧ (run (vm_init code)).1.fault = none) ∨
      (∃ f, (run (vm_init code)).1.fault = some f ∧ (run (vm_init code)).1 ≠ .Halted ∧
        (run (vm_init code)).1 ≠ .EndOfStream)) ∧
    (∀ fuel, code.length ≤ fuel → runLoop fuel (vm_init code) = run (vm_init code)) ∧
    (∀ n vm vm1, ReachIn (vm_init code) n vm → step vm = .next vm1 →
      vm.ic < vm1.ic ∧ vm1.ic ≤ code.length ∧ n + 1 ≤ vm1.ic) := by
  have hcl : (vm_init code).code_len = code.length := rfl
  have hic0 : (vm_init code).ic = 0 := rfl
  refine ⟨?_, run_ne_OutOfFuel _, ?_, ?_, ?_⟩
  · obtain ⟨vmf, hr, hs⟩ := run_final (vm_init code)
    obtain ⟨n, hn⟩ := reach_reachIn hr
    have h1 := reachIn_ic hn
    obtain ⟨hc, -, -, hle, -⟩ := reach_inv hr
    have hle2 := hle (by rw [hcl, hic0]; exact Nat.zero_le _)
    have hcl2 : vmf.code_len = code.length := by unfold VM.code_len; rw [hc]; rfl
    rw [hcl2] at hle2
    rw [hic0] at h1
    refine ⟨n, vmf, hn, hs, by omega, hle2, by omega, fun ho => ?_⟩
    have := step_stop_fetch hs ho
    omega
  · have hne := run_ne_OutOfFuel (vm_init code)
    revert hne
    cases (run (vm_init code)).1 with
    | Halted => intro _; exact Or.inl ⟨rfl, rfl⟩
    | EndOfStream => intro _; exact Or.inr (Or.inl ⟨rfl, rfl⟩)
    | Returned f => intro _; exact Or.inr (Or.inr ⟨f, rfl, by simp, by simp⟩)
    | Exited f => intro _; exact Or.inr (Or.inr ⟨f, rfl, by simp, by simp⟩)
    | OutOfFuel => intro h; exact absurd rfl h
  · intro fuel hf
    exact runLoop_eq_run (by rw [hcl]; omega)
  · intro n vm vm1 hn hs
    obtain ⟨-, hlt, hle, -⟩ := step_next_inv hs
    have h1 := reachIn_ic hn
    have hc := (reach_inv (reachIn_reach hn)).1
    have hcl2 : vm.code_len = code.length := by unfold VM.code_len; rw [hc]; rfl
    rw [hic0] at h1
    rw [hcl2] at hle
    exact ⟨hlt, hle, by omega⟩

/-- Worked instance of C19: the seven instructions of `example_prog` (19 bytes)
run to `Halted` within 19 iterations. -/
theorem run_terminates_witness :
    (run (vm_init example_prog)).1 = .Halted ∧
    runLoop 19 (vm_init example_prog) = run (vm_init example_prog) :=
  ⟨by decide, (run_terminates example_prog).2.2.2.1 19 (by decide)⟩

/-- An iteration that goes round again does the same when more bytes follow the
code: it reads only bytes below the cursor it ends with. -/
theorem step_extend_next {vm vm1 : VM} (q : List Byte) (h : step vm = .next vm1) :
    step (vm.extend q) = .next (vm1.extend q) := by
  unfold step at h
  repeat' split at h
  all_goals simp only [read_u8_eq_some, read_i32_eq_some, pop_eq_some, pushK_eq_next,
    Step.next.injEq, reduceCtorEq, VM.code_len, STACK_SIZE] at *
  all_goals try subst h
  all_goals simp_all only [List.length_set, true_and, Nat.cast_ofNat]
  all_goals unfold step VM.extend vm_read_u8 
  all_goals simp (disch := omega) only [VM.code_len, List.length_append, if_neg, ge_iff_le, List.getD_append]
  all_goals simp (disch := omega) only [*, vm_read_i32, pop, push, pushK, VM.code_len,
    List.length_append, if_neg, if_pos, ge_iff_le, List.getD_append, STACK_SIZE, Nat.cast_ofNat, if_false]

theorem reach_extend {vm0 vm : VM} (q : List Byte) (h : Reach vm0 vm) :
    Reach (vm0.extend q) (vm.extend q) := by
  induction h with
  | start => exact Reach.start
  | next _ hs ih => exact Reach.next ih (step_extend_next q hs)

/-- The loop ends with the end of the stream only at a cursor that is not below
the length of the code, and leaves the state as it is. -/
theorem step_stop_eos {vm vm1 : VM} (h : step vm = .stop .EndOfStream vm1) :
    vm1 = vm ∧ vm.code_len ≤ vm.ic := by
  by_cases hic : vm.ic < vm.code_len
  · exfalso
    unfold step at h
    rw [read_u8_ok hic] at h
    revert h
    simp only
    repeat' split
    all_goals simp only [pushK_eq_stop, Step.stop.injEq, reduceCtorEq, false_and, and_false,
      not_false_eq_true, imp_self, false_implies]
  · have hle : vm.code_len ≤ vm.ic := Nat.le_of_not_lt hic
    rw [step_eof hle] at h
    simp only [Step.stop.injEq, true_and] at h
    exact ⟨h.symm, hle⟩

/-- A `HALT` byte right after the code, at a cursor that stands at the end of
the code, ends the run with `Halted` whatever follows it. -/
theorem step_halt_extend {vm : VM} (q : List Byte) (hic : vm.ic = vm.code.length) :
    step (vm.extend (0 :: q)) =
      .stop .Halted { vm.extend (0 :: q) with ic := vm.ic + 1 } := by
  have hlt : (vm.extend (0 :: q)).ic < (vm.extend (0 :: q)).code_len := by
    show vm.ic < (vm.code ++ 0 :: q).length
    rw [List.length_append, hic, List.length_cons]
    omega
  have hop : (vm.extend (0 :: q)).code.getD (vm.extend (0 :: q)).ic 0 = 0 := by
    show (vm.code ++ 0 :: q).getD vm.ic 0 = 0
    rw [hic, List.getD_append_right _ _ _ _ (Nat.le_refl _), Nat.sub_self]
    rfl
  unfold step
  rw [read_u8_ok hlt, hop]
  rfl

/-- A program that runs to the end of its stream, followed by a `HALT` byte and
any bytes `q`: the run ends with `Halted` in the final state of the program
alone, with the cursor one byte further (and the longer code). -/
theorem run_halt_suffix (p q : List Byte) (h : (run (vm_init p)).1 = .EndOfStream) :
    run (vm_init (p ++ 0 :: q)) =
      (.Halted, { (run (vm_init p)).2.extend (0 :: q) with ic := p.length + 1 }) := by
  obtain ⟨vmf, hr, hs⟩ := run_final (vm_init p)
  rw [h] at hs
  obtain ⟨e, hge⟩ := step_stop_eos hs
  obtain ⟨hc, -, -, hle, -⟩ := reach_inv hr
  have hle2 := hle (Nat.zero_le _)
  have hcl : vmf.code_len = p.length := by unfold VM.code_len; rw [hc]; rfl
  have hic : vmf.ic = vmf.code.length := by
    unfold VM.code_len at hge hle2
    omega
  have hicp : vmf.ic = p.length := by rw [hic]; exact hcl
  have hx := reach_extend (0 :: q) hr
  have e0 : (vm_init p).extend (0 :: q) = vm_init (p ++ 0 :: q) := rfl
  rw [e0] at hx
  rw [run_reach hx, run_stop (step_halt_extend q hic), e, hicp]

/-- A run from the initial state that ends with the end of the stream ends with
the cursor at the length of the program. -/
theorem run_eos_ic (p : List Byte) (h : (run (vm_init p)).1 = .EndOfStream) :
    (run (vm_init p)).2.ic = p.length := by
  obtain ⟨vmf, hr, hs⟩ := run_final (vm_init p)
  rw [h] at hs
  obtain ⟨e, hge⟩ := step_stop_eos hs
  obtain ⟨hc, -, -, hle, -⟩ := reach_inv hr
  have hle2 := hle (Nat.zero_le _)
  have hcl : vmf.code_len = p.length := by unfold VM.code_len; rw [hc]; rfl
  rw [e]
  omega

/-- C15: reaching the end of the byte stream at an opcode fetch is a clean
termination equivalent to an implicit `HALT`.  For every program `p` whose run
ends because the cursor equals the length of `p` at an opcode fetch, the run of
`p` followed by one `HALT` byte ends with `Halted`, with the same stack
(array, stack pointer and live cells), the same output and the same success
status (no fault, exit code 0) as the run of `p`.  In particular the empty
program ends at once with the end of the stream, with no output, an empty stack
and success. -/
theorem eos_is_implicit_halt (p : List Byte) (h : (run (vm_init p)).1 = .EndOfStream) :
    (run (vm_init p)).2.ic = p.length ∧
    (run (vm_init (p ++ [0]))).1 = .Halted ∧
    (run (vm_init (p ++ [0]))).2.stack = (run (vm_init p)).2.stack ∧
    (run (vm_init (p ++ [0]))).2.sp = (run (vm_init p)).2.sp ∧
    (run (vm_init (p ++ [0]))).2.elems = (run (vm_init p)).2.elems ∧
    (run (vm_init (p ++ [0]))).2.out = (run (vm_init p)).2.out ∧
    (run (vm_init (p ++ [0]))).1.fault = none ∧ (run (vm_init p)).1.fault = none ∧
    exit_code (run (vm_init (p ++ [0]))).1 = 0 ∧ exit_code (run (vm_init p)).1 = 0 ∧
    (run (vm_init [])).1 = .EndOfStream ∧ (run (vm_init [])).2.out = "" ∧
    (run (vm_init [])).2.elems = [] ∧ (run (vm_init [])).2.sp = 0 ∧
    exit_code (run (vm_init [])).1 = 0 := by
  have e := run_halt_suffix p [] h
  refine ⟨run_eos_ic p h, ?_, ?_, ?_, ?_, ?_, ?_, ?_, ?_, ?_, by decide, by decide, ?_,
    by decide, by decide⟩
  · rw [e]
  · rw [e]; rfl
  · rw [e]; rfl
  · rw [e]; rfl
  · rw [e]; rfl
  · rw [e]; rfl
  · rw [h]; rfl
  · rw [e]; rfl
  · rw [h]; rfl
  · have hr : run (vm_init []) = (.EndOfStream, vm_init []) := run_stop (step_eof (Nat.le_refl _))
    rw [hr]
    exact vm_init_elems []

/-- Worked instance of C15: `PUSH 5, PUSH 7, PRINT` runs three instructions to
the end of its stream with the stack `[5]` and the output `7`; with a `HALT`
byte appended the run ends `Halted` with that stack and that output. -/
theorem eos_is_implicit_halt_witness :
    (run (vm_init [1, 5, 0, 0, 0, 1, 7, 0, 0, 0, 6])).1 = .EndOfStream ∧
    (run (vm_init [1, 5, 0, 0, 0, 1, 7, 0, 0, 0, 6])).2.ic = 11 ∧
    (run (vm_init ([1, 5, 0, 0, 0, 1, 7, 0, 0, 0, 6] ++ [0]))).1 = .Halted ∧
    (run (vm_init ([1, 5, 0, 0, 0, 1, 7, 0, 0, 0, 6] ++ [0]))).2.sp = 1 ∧
    (run (vm_init ([1, 5, 0, 0, 0, 1, 7, 0, 0, 0, 6] ++ [0]))).2.elems = [5] ∧
    (run (vm_init ([1, 5, 0, 0, 0, 1, 7, 0, 0, 0, 6] ++ [0]))).2.out = "7\n" ∧
    exit_code (run (vm_init ([1, 5, 0, 0, 0, 1, 7, 0, 0, 0, 6] ++ [0]))).1 = 0 := by
  have h := eos_is_implicit_halt [1, 5, 0, 0, 0, 1, 7, 0, 0, 0, 6] (by decide)
  have hsp : (run (vm_init [1, 5, 0, 0, 0, 1, 7, 0, 0, 0, 6])).2.sp = 1 := by decide
  have hel : (run (vm_init [1, 5, 0, 0, 0, 1, 7, 0, 0, 0, 6])).2.elems = [5] := by decide
  have hout : (run (vm_init [1, 5, 0, 0, 0, 1, 7, 0, 0, 0, 6])).2.out = "7\n" := by decide
  exact ⟨by decide, h.1, h.2.1, h.2.2.2.1.trans hsp, h.2.2.2.2.1.trans hel,
    h.2.2.2.2.2.1.trans hout, h.2.2.2.2.2.2.2.2.1⟩

/-- C18: no instruction runs after an executed `HALT`.  For every program `p`
whose run ends cleanly at the end of the stream and for every byte sequence
`q`, the run of `p` followed by a `HALT` byte followed by `q` ends with
`Halted`, with exactly the stack (array, stack pointer and live cells) and the
output of the run of `p` alone, with the cursor right after the `HALT` byte:
no byte of `q` is fetched, whatever `q` contains. -/
theorem no_instruction_after_halt (p q : List Byte)
    (h : (run (vm_init p)).1 = .EndOfStream) :
    (run (vm_init (p ++ [0] ++ q))).1 = .Halted ∧
    (run (vm_init (p ++ [0] ++ q))).2.stack = (run (vm_init p)).2.stack ∧
    (run (vm_init (p ++ [0] ++ q))).2.sp = (run (vm_init p)).2.sp ∧
    (run (vm_init (p ++ [0] ++ q))).2.elems = (run (vm_init p)).2.elems ∧
    (run (vm_init (p ++ [0] ++ q))).2.out = (run (vm_init p)).2.out ∧
    (run (vm_init (p ++ [0] ++ q))).2.ic = p.length + 1 ∧
    (run (vm_init (p ++ [0] ++ q))).1.fault = none := by
  have e := run_halt_suffix p q h
  have ea : p ++ [0] ++ q = p ++ 0 :: q := by rw [List.append_assoc]; rfl
  rw [ea, e]
  exact ⟨rfl, rfl, rfl, rfl, rfl, rfl, rfl⟩

/-- Worked instance of C18: `PUSH 5, PRINT` followed by `HALT`, an unknown
opcode and a truncated `PUSH`. -/
theorem no_instruction_after_halt_witness :
    (run (vm_init [1, 5, 0, 0, 0, 6])).1 = .EndOfStream ∧
    (run (vm_init ([1, 5, 0, 0, 0, 6] ++ [0] ++ [0x2a, 1, 0]))).1 = .Halted ∧
    (run (vm_init ([1, 5, 0, 0, 0, 6] ++ [0] ++ [0x2a, 1, 0]))).2.out =
      (run (vm_init [1, 5, 0, 0, 0, 6])).2.out :=
  ⟨by decide, (no_instruction_after_halt [1, 5, 0, 0, 0, 6] [0x2a, 1, 0] (by decide)).1,
    (no_instruction_after_halt [1, 5, 0, 0, 0, 6] [0x2a, 1, 0] (by decide)).2.2.2.2.1⟩
end TinyPVM
